import Mathlib

/-!
Verification of the neofoodclub core (src/math.rs, src/bets.rs, src/odds.rs,
src/chance.rs) against its natural-language specification.

The Rust code is shallowly embedded: `u32` values become `Nat` (all the
arithmetic here stays far below `2^32`, and the bit operations used are
identical on `Nat`), `f64` probability arithmetic becomes exact `ℚ`
arithmetic, `HashMap<u32, u32>` becomes an association list `List (ℕ × ℕ)`
processed in a fixed (deterministic) order, and panics become `Option` /
`Except` failures.
-/

namespace NFC

/-- src/math.rs: `BET_AMOUNT_MIN`. -/
def BET_AMOUNT_MIN : ℕ := 1

/-- src/math.rs: `BET_AMOUNT_MAX`. -/
def BET_AMOUNT_MAX : ℕ := 70304

/-- src/math.rs: `BIT_MASKS`, one nibble per arena, arena 0 most significant. -/
def BIT_MASKS : List ℕ := [0xF0000, 0xF000, 0xF00, 0xF0, 0xF]

/-- src/math.rs: `PIR_IB`, pirate index `i` (0-based) in every arena at once. -/
def PIR_IB : List ℕ := [0x88888, 0x44444, 0x22222, 0x11111]

/-- src/math.rs: `CONVERT_PIR_IB`; index 0 is the full wildcard `0xFFFFF`. -/
def CONVERT_PIR_IB : List ℕ := [0xFFFFF, 0x88888, 0x44444, 0x22222, 0x11111]

/-- src/math.rs: `pirate_binary(index, arena)`.
`0x80000 >> ((index - 1) + arena * 4)` for `index` in `1..=4`, else `0`. -/
def pirate_binary (index arena : ℕ) : ℕ :=
  if 1 ≤ index ∧ index ≤ 4 then 0x80000 >>> ((index - 1) + arena * 4) else 0

/-- src/math.rs: `pirates_binary(bets_indices)`: fold of `pirate_binary`
over the enumerated 5-entry selection. -/
def pirates_binary (bets_indices : List ℕ) : ℕ :=
  bets_indices.enum.foldl (fun total p => total ||| pirate_binary p.2 p.1) 0

/-- `u32::trailing_zeros` with bounded recursion depth 32 (a `u32` has 32
bits); `trailing_zeros(0) = 32` as in Rust. -/
def tzAux : ℕ → ℕ → ℕ
  | 0, _ => 0
  | fuel + 1, n => if n % 2 = 1 then 0 else 1 + tzAux fuel (n / 2)

/-- `u32::trailing_zeros`. -/
def trailing_zeros32 (n : ℕ) : ℕ :=
  if n = 0 then 32 else tzAux 32 n

/-- The arena-`i` nibble of a mask: the `let nibble = (binary >> (4 * (4 -
i))) & 0xF` expression of `binary_to_indices`. -/
def nibAt (i k : ℕ) : ℕ := (k >>> (4 * (4 - i))) &&& 0xF

/-- src/math.rs: `binary_to_indices(binary)`: per arena, the nibble is
extracted and, when non-zero, decoded as `4 - trailing_zeros`. -/
def binary_to_indices (binary : ℕ) : List ℕ :=
  (List.range 5).map (fun i =>
    if nibAt i binary ≠ 0 then 4 - trailing_zeros32 (nibAt i binary) else 0)

/-- src/math.rs: `ib_doable(binary)`: every arena's nibble is non-zero. -/
def ib_doable (binary : ℕ) : Bool :=
  BIT_MASKS.all (fun mask => binary &&& mask != 0)

/-! ### Bit-level helper layer

A 20-bit mask splits into 5 nibbles, one per arena (arena 0 most
significant). -/

/-- `x` fits in 20 bits (stated as an idempotent masking so that closure
under the bit operations is easy). -/
def In20 (x : ℕ) : Prop := x &&& 0xFFFFF = x

instance In20_decidable (x : ℕ) : Decidable (In20 x) := by
  unfold In20
  infer_instance

lemma tb15 (r : ℕ) : (15 : ℕ).testBit r = decide (r < 4) := by
  have h : (15 : ℕ) = 2 ^ 4 - 1 := by norm_num
  rw [h, Nat.testBit_two_pow_sub_one]

lemma tbM (r : ℕ) : (0xFFFFF : ℕ).testBit r = decide (r < 20) := by
  have h : (0xFFFFF : ℕ) = 2 ^ 20 - 1 := by norm_num
  rw [h, Nat.testBit_two_pow_sub_one]

lemma In20.high {x : ℕ} (h : In20 x) {j : ℕ} (hj : 20 ≤ j) :
    x.testBit j = false := by
  rw [← h, Nat.testBit_and, tbM]
  simp only [Bool.and_eq_false_iff]
  right
  simpa using (by omega : ¬ j < 20)

lemma in20_of_lt {x : ℕ} (h : x < 2 ^ 20) : In20 x := by
  unfold In20
  apply Nat.eq_of_testBit_eq
  intro j
  rw [Nat.testBit_and, tbM]
  by_cases hj : j < 20
  · simp [hj]
  · have hle : (2 : ℕ) ^ 20 ≤ 2 ^ j := Nat.pow_le_pow_right (by norm_num) (by omega)
    simp [hj, Nat.testBit_lt_two_pow (lt_of_lt_of_le h hle)]

lemma in20_land_left {a : ℕ} (b : ℕ) (h : In20 a) : In20 (a &&& b) := by
  unfold In20 at *
  rw [Nat.land_assoc, Nat.land_comm b, ← Nat.land_assoc, h]

lemma in20_land_right (a : ℕ) {b : ℕ} (h : In20 b) : In20 (a &&& b) := by
  unfold In20 at *
  rw [Nat.land_assoc, h]

lemma in20_lor {a b : ℕ} (ha : In20 a) (hb : In20 b) : In20 (a ||| b) := by
  unfold In20
  apply Nat.eq_of_testBit_eq
  intro j
  by_cases hj : j < 20
  · simp [Nat.testBit_and, Nat.testBit_or, tbM, hj]
  · have hja : a.testBit j = false := ha.high (by omega)
    have hjb : b.testBit j = false := hb.high (by omega)
    simp [Nat.testBit_and, Nat.testBit_or, tbM, hj, hja, hjb]

lemma in20_xor {a b : ℕ} (ha : In20 a) (hb : In20 b) : In20 (a ^^^ b) := by
  unfold In20
  apply Nat.eq_of_testBit_eq
  intro j
  by_cases hj : j < 20
  · simp [Nat.testBit_and, Nat.testBit_xor, tbM, hj]
  · have hja : a.testBit j = false := ha.high (by omega)
    have hjb : b.testBit j = false := hb.high (by omega)
    simp [Nat.testBit_and, Nat.testBit_xor, tbM, hj, hja, hjb]

lemma nib_lt16 (i k : ℕ) : nibAt i k < 16 :=
  lt_of_le_of_lt Nat.and_le_right (by norm_num)

lemma nibAt_land (i a b : ℕ) : nibAt i (a &&& b) = nibAt i a &&& nibAt i b := by
  unfold nibAt
  apply Nat.eq_of_testBit_eq
  intro j
  simp only [Nat.testBit_and, Nat.testBit_shiftRight, tb15]
  by_cases hj : j < 4 <;> simp [hj]

lemma nibAt_lor (i a b : ℕ) : nibAt i (a ||| b) = nibAt i a ||| nibAt i b := by
  unfold nibAt
  apply Nat.eq_of_testBit_eq
  intro j
  simp only [Nat.testBit_and, Nat.testBit_or, Nat.testBit_shiftRight, tb15]
  by_cases hj : j < 4 <;> simp [hj]

lemma nibAt_xor (i a b : ℕ) : nibAt i (a ^^^ b) = nibAt i a ^^^ nibAt i b := by
  unfold nibAt
  apply Nat.eq_of_testBit_eq
  intro j
  simp only [Nat.testBit_and, Nat.testBit_xor, Nat.testBit_shiftRight, tb15]
  by_cases hj : j < 4 <;> simp [hj]

/-- Bits of a 20-bit value are recovered from its nibbles. -/
lemma testBit_eq_nib (a j : ℕ) (h : j < 20) :
    a.testBit j = (nibAt (4 - j / 4) a).testBit (j % 4) := by
  unfold nibAt
  have h1 : 4 - (4 - j / 4) = j / 4 := by omega
  have h2 : 4 * (j / 4) + j % 4 = j := by omega
  rw [h1, Nat.testBit_and, Nat.testBit_shiftRight, h2, tb15]
  simp [Nat.mod_lt j (by norm_num : 0 < 4)]

/-- Two 20-bit masks with equal nibbles are equal. -/
lemma ext20 {a b : ℕ} (ha : In20 a) (hb : In20 b)
    (h : ∀ i, i < 5 → nibAt i a = nibAt i b) : a = b := by
  apply Nat.eq_of_testBit_eq
  intro j
  by_cases hj : j < 20
  · rw [testBit_eq_nib a j hj, testBit_eq_nib b j hj, h (4 - j / 4) (by omega)]
  · rw [ha.high (by omega), hb.high (by omega)]

lemma land_mask_shift (m s : ℕ) :
    m &&& (15 <<< s) = ((m >>> s) &&& 15) <<< s := by
  apply Nat.eq_of_testBit_eq
  intro j
  simp only [Nat.testBit_and, Nat.testBit_shiftLeft, Nat.testBit_shiftRight, tb15]
  by_cases hs : s ≤ j
  · have h1 : s + (j - s) = j := by omega
    simp [hs, h1, Bool.and_comm, Bool.and_left_comm]
  · simp [hs]

lemma land_nibmask_eq_zero (m s : ℕ) :
    m &&& (15 <<< s) = 0 ↔ (m >>> s) &&& 15 = 0 := by
  have h2 : (2 : ℕ) ^ s ≠ 0 := by positivity
  rw [land_mask_shift, Nat.shiftLeft_eq, Nat.mul_eq_zero]
  simp [h2]

/-- `ib_doable` in nibble form. -/
lemma ib_doable_iff (m : ℕ) :
    ib_doable m = true ↔ ∀ i, i < 5 → nibAt i m ≠ 0 := by
  have e0 : (983040 : ℕ) = 15 <<< 16 := by decide
  have e1 : (61440 : ℕ) = 15 <<< 12 := by decide
  have e2 : (3840 : ℕ) = 15 <<< 8 := by decide
  have e3 : (240 : ℕ) = 15 <<< 4 := by decide
  have e4 : (15 : ℕ) = 15 <<< 0 := by decide
  have k0 : (m &&& 983040 = 0) ↔ nibAt 0 m = 0 := by
    rw [e0, land_nibmask_eq_zero]; simp [nibAt]
  have k1 : (m &&& 61440 = 0) ↔ nibAt 1 m = 0 := by
    rw [e1, land_nibmask_eq_zero]; simp [nibAt]
  have k2 : (m &&& 3840 = 0) ↔ nibAt 2 m = 0 := by
    rw [e2, land_nibmask_eq_zero]; simp [nibAt]
  have k3 : (m &&& 240 = 0) ↔ nibAt 3 m = 0 := by
    rw [e3, land_nibmask_eq_zero]; simp [nibAt]
  have k4 : (m &&& 15 = 0) ↔ nibAt 4 m = 0 := by
    rw [e4, land_nibmask_eq_zero]; simp [nibAt]
  constructor
  · intro h i hi
    simp only [ib_doable, BIT_MASKS, List.all_cons, List.all_nil,
      Bool.and_eq_true, bne_iff_ne, ne_eq, Bool.and_true] at h
    obtain ⟨h0, h1, h2', h3', h4'⟩ := h
    interval_cases i
    · exact fun hz => h0 (k0.mpr hz)
    · exact fun hz => h1 (k1.mpr hz)
    · exact fun hz => h2' (k2.mpr hz)
    · exact fun hz => h3' (k3.mpr hz)
    · exact fun hz => h4' (k4.mpr hz)
  · intro h
    simp only [ib_doable, BIT_MASKS, List.all_cons, List.all_nil,
      Bool.and_eq_true, bne_iff_ne, ne_eq, Bool.and_true]
    exact ⟨fun hz => h 0 (by norm_num) (k0.mp hz),
      fun hz => h 1 (by norm_num) (k1.mp hz),
      fun hz => h 2 (by norm_num) (k2.mp hz),
      fun hz => h 3 (by norm_num) (k3.mp hz),
      fun hz => h 4 (by norm_num) (k4.mp hz)⟩

/-! ### Winner-combination semantics

A concrete winner combination is a selection with every arena decided: a
list of 5 entries, each in `1..=4` (4^5 = 1024 combinations).  A region
mask `k` accepts the combination `t` iff every bit of `pirates_binary t`
lies inside `k`. -/

/-- `t` is one of the 1,024 concrete winner combinations. -/
def ValidWinner (t : List ℕ) : Prop := t.length = 5 ∧ ∀ x ∈ t, 1 ≤ x ∧ x ≤ 4

/-- Region mask `k` accepts winner combination `t`. -/
def acc (k : ℕ) (t : List ℕ) : Prop :=
  pirates_binary t &&& k = pirates_binary t

/-- The single-bit nibble encoding a chosen pirate `x` (0 encodes "none"). -/
def selBit (x : ℕ) : ℕ := if x = 0 then 0 else 2 ^ (4 - x)

/-- Nibble `n` accepts pirate `x`. -/
def accN (n x : ℕ) : Prop := selBit x &&& n = selBit x

instance ValidWinner_decidable (t : List ℕ) : Decidable (ValidWinner t) := by
  unfold ValidWinner
  infer_instance

instance acc_decidable (k : ℕ) (t : List ℕ) : Decidable (acc k t) := by
  unfold acc
  infer_instance

lemma pb_unfold (a b c d e : ℕ) :
    pirates_binary [a, b, c, d, e] =
      ((((0 ||| pirate_binary a 0) ||| pirate_binary b 1) ||| pirate_binary c 2)
        ||| pirate_binary d 3) ||| pirate_binary e 4 := rfl

lemma nib_pirate : ∀ x, x < 5 → ∀ i, i < 5 → ∀ j, j < 5 →
    nibAt i (pirate_binary x j) = if i = j then selBit x else 0 := by decide

lemma pirate_in20 (x j : ℕ) : In20 (pirate_binary x j) := by
  unfold pirate_binary
  split
  · have hle : (0x80000 : ℕ) >>> ((x - 1) + j * 4) ≤ 0x80000 := by
      rw [Nat.shiftRight_eq_div_pow]
      exact Nat.div_le_self _ _
    exact in20_of_lt (lt_of_le_of_lt hle (by norm_num))
  · exact in20_of_lt (show (0 : ℕ) < 2 ^ 20 by norm_num)

lemma pb_in20 (a b c d e : ℕ) : In20 (pirates_binary [a, b, c, d, e]) := by
  rw [pb_unfold, Nat.zero_or]
  exact in20_lor (in20_lor (in20_lor (in20_lor (pirate_in20 a 0) (pirate_in20 b 1))
    (pirate_in20 c 2)) (pirate_in20 d 3)) (pirate_in20 e 4)

lemma nib_pb (a b c d e : ℕ) (ha : a < 5) (hb : b < 5) (hc : c < 5)
    (hd : d < 5) (he : e < 5) :
    ∀ i, i < 5 → nibAt i (pirates_binary [a, b, c, d, e]) =
      selBit ([a, b, c, d, e].getD i 0) := by
  intro i hi
  have p0 := nib_pirate a ha i hi 0 (by norm_num)
  have p1 := nib_pirate b hb i hi 1 (by norm_num)
  have p2 := nib_pirate c hc i hi 2 (by norm_num)
  have p3 := nib_pirate d hd i hi 3 (by norm_num)
  have p4 := nib_pirate e he i hi 4 (by norm_num)
  rw [pb_unfold, Nat.zero_or, nibAt_lor, nibAt_lor, nibAt_lor, nibAt_lor,
    p0, p1, p2, p3, p4]
  interval_cases i <;> simp

lemma list_len5 {t : List ℕ} (h : t.length = 5) :
    ∃ a b c d e, t = [a, b, c, d, e] := by
  rcases t with _ | ⟨a, _ | ⟨b, _ | ⟨c, _ | ⟨d, _ | ⟨e, _ | ⟨f, t⟩⟩⟩⟩⟩⟩ <;>
    first
      | exact ⟨a, b, c, d, e, rfl⟩
      | simp_all

lemma winner_getD {t : List ℕ} (h : ValidWinner t) {i : ℕ} (hi : i < 5) :
    1 ≤ t.getD i 0 ∧ t.getD i 0 ≤ 4 := by
  obtain ⟨hlen, hmem⟩ := h
  have hil : i < t.length := by omega
  have hg : t.getD i 0 = t.get ⟨i, hil⟩ := by
    simp [List.getD_eq_getElem?_getD, List.getElem?_eq_getElem hil]
  rw [hg]
  exact hmem _ (t.get_mem _ _)

/-- Acceptance, read nibble-by-nibble. -/
lemma acc_iff_nib {k : ℕ} {t : List ℕ} (h : ValidWinner t) :
    acc k t ↔ ∀ i, i < 5 → accN (nibAt i k) (t.getD i 0) := by
  obtain ⟨a, b, c, d, e, rfl⟩ := list_len5 h.1
  have hb : ∀ x ∈ [a, b, c, d, e], 1 ≤ x ∧ x ≤ 4 := h.2
  have ha5 : a < 5 := by have := hb a (by simp); omega
  have hb5 : b < 5 := by have := hb b (by simp); omega
  have hc5 : c < 5 := by have := hb c (by simp); omega
  have hd5 : d < 5 := by have := hb d (by simp); omega
  have he5 : e < 5 := by have := hb e (by simp); omega
  constructor
  · intro hacc i hi
    have := congrArg (nibAt i) hacc
    rw [nibAt_land, nib_pb a b c d e ha5 hb5 hc5 hd5 he5 i hi] at this
    exact this
  · intro hn
    have h1 : In20 (pirates_binary [a, b, c, d, e] &&& k) :=
      in20_land_left k (pb_in20 a b c d e)
    refine ext20 h1 (pb_in20 a b c d e) ?_
    intro i hi
    rw [nibAt_land, nib_pb a b c d e ha5 hb5 hc5 hd5 he5 i hi]
    exact hn i hi

instance accN_decidable (n x : ℕ) : Decidable (accN n x) := by
  unfold accN
  infer_instance

set_option synthInstance.maxSize 2000 in
lemma accN_xor : ∀ n, n < 16 → ∀ c, c < 16 → c &&& n = c → ∀ x, x < 5 → 1 ≤ x →
    (accN (n ^^^ c) x ↔ (accN n x ∧ ¬ accN c x)) := by decide

set_option synthInstance.maxSize 2000 in
lemma accN_exists : ∀ n, n < 16 → n ≠ 0 → ∃ x, x < 5 ∧ 1 ≤ x ∧ accN n x := by
  decide

set_option synthInstance.maxSize 2000 in
lemma accN_ne_zero : ∀ n, n < 16 → ∀ x, x < 5 → 1 ≤ x → accN n x → n ≠ 0 := by
  decide

lemma accN_mono {n m x : ℕ} (hsub : n &&& m = n) (h : accN n x) : accN m x := by
  unfold accN at *
  calc selBit x &&& m = (selBit x &&& n) &&& m := by rw [h]
    _ = selBit x &&& (n &&& m) := Nat.land_assoc _ _ _
    _ = selBit x &&& n := by rw [hsub]
    _ = selBit x := h

lemma accN_and {n m x : ℕ} (h1 : accN n x) (h2 : accN m x) :
    accN (n &&& m) x := by
  unfold accN at *
  rw [← Nat.land_assoc, h1, h2]

/-- Every doable region accepts at least one concrete winner combination. -/
lemma exists_winner {m : ℕ} (hd : ib_doable m = true) :
    ∃ t, ValidWinner t ∧ acc m t := by
  rw [ib_doable_iff] at hd
  obtain ⟨a, ha5, ha1, haN⟩ := accN_exists _ (nib_lt16 0 m) (hd 0 (by norm_num))
  obtain ⟨b, hb5, hb1, hbN⟩ := accN_exists _ (nib_lt16 1 m) (hd 1 (by norm_num))
  obtain ⟨c, hc5, hc1, hcN⟩ := accN_exists _ (nib_lt16 2 m) (hd 2 (by norm_num))
  obtain ⟨d, hd5, hd1, hdN⟩ := accN_exists _ (nib_lt16 3 m) (hd 3 (by norm_num))
  obtain ⟨e, he5, he1, heN⟩ := accN_exists _ (nib_lt16 4 m) (hd 4 (by norm_num))
  have hv : ValidWinner [a, b, c, d, e] := by
    refine ⟨rfl, ?_⟩
    intro x hx
    simp only [List.mem_cons, List.not_mem_nil, or_false] at hx
    rcases hx with rfl | rfl | rfl | rfl | rfl <;> omega
  refine ⟨[a, b, c, d, e], hv, ?_⟩
  rw [acc_iff_nib hv]
  intro i hi
  interval_cases i <;> simpa using (by assumption)

lemma acc_of_acc_land_left {k k' : ℕ} {t : List ℕ}
    (h : acc (k &&& k') t) : acc k t := by
  have hkk : (k &&& k') &&& k = k &&& k' := by
    apply Nat.eq_of_testBit_eq
    intro j
    simp only [Nat.testBit_and]
    cases k.testBit j <;> cases k'.testBit j <;> simp
  unfold acc at *
  calc pirates_binary t &&& k = (pirates_binary t &&& (k &&& k')) &&& k := by rw [h]
    _ = pirates_binary t &&& ((k &&& k') &&& k) := Nat.land_assoc _ _ _
    _ = pirates_binary t &&& (k &&& k') := by rw [hkk]
    _ = pirates_binary t := h

lemma acc_of_acc_land_right {k k' : ℕ} {t : List ℕ}
    (h : acc (k &&& k') t) : acc k' t := by
  rw [Nat.land_comm] at h
  exact acc_of_acc_land_left h

/-- Two regions share an accepted winner combination iff their intersection
is doable. -/
lemma doable_land_iff {k k' : ℕ} :
    (∃ t, ValidWinner t ∧ acc k t ∧ acc k' t) ↔ ib_doable (k &&& k') = true := by
  constructor
  · rintro ⟨t, hv, h1, h2⟩
    rw [ib_doable_iff]
    intro i hi
    have a1 := (acc_iff_nib hv).mp h1 i hi
    have a2 := (acc_iff_nib hv).mp h2 i hi
    have hA : accN (nibAt i (k &&& k')) (t.getD i 0) := by
      rw [nibAt_land]
      exact accN_and a1 a2
    obtain ⟨hx1, hx4⟩ := winner_getD hv hi
    exact accN_ne_zero _ (nib_lt16 _ _) _ (by omega) hx1 hA
  · intro hd
    obtain ⟨t, hv, hacc⟩ := exists_winner hd
    exact ⟨t, hv, acc_of_acc_land_left hacc, acc_of_acc_land_right hacc⟩

/-! ### The outcome reducer (src/math.rs: `expand_ib_object`)

The Rust `HashMap<u32, u32>` is modelled as an association list with
distinct keys, processed in list order (the algorithm's result key set is
independent of the iteration order, and the claims below are about that
key set). -/

/-- `HashMap::insert`: overwrite an existing key or append. -/
def mapInsert : List (ℕ × ℕ) → ℕ → ℕ → List (ℕ × ℕ)
  | [], k, v => [(k, v)]
  | (k', v') :: rest, k, v =>
      if k' = k then (k, v) :: rest else (k', v') :: mapInsert rest k v

/-- `HashMap::remove` (drops the first matching key). -/
def mapRemove : List (ℕ × ℕ) → ℕ → List (ℕ × ℕ)
  | [], _ => []
  | (k', v') :: rest, k => if k' = k then rest else (k', v') :: mapRemove rest k

/-- Lookup with a default (the algorithm only ever looks up present keys). -/
def mapGetD : List (ℕ × ℕ) → ℕ → ℕ → ℕ
  | [], _, d => d
  | (k', v') :: rest, k, d => if k' = k then v' else mapGetD rest k d

/-- `*bets_to_ib.entry(ib).or_insert(0) += bet_odds[key]`. -/
def insertAdd : List (ℕ × ℕ) → ℕ → ℕ → List (ℕ × ℕ)
  | [], k, v => [(k, v)]
  | (k', v') :: rest, k, v =>
      if k' = k then (k', v' + v) :: rest else (k', v') :: insertAdd rest k v

/-- Insertion into a sorted list, ordered by key (`Vec::sort` on pairs
whose keys are distinct orders by the first component). -/
def sortedInsert (x : ℕ × ℕ) : List (ℕ × ℕ) → List (ℕ × ℕ)
  | [] => [x]
  | y :: ys => if x.1 ≤ y.1 then x :: y :: ys else y :: sortedInsert x ys

/-- `bets_to_ib.sort()`. -/
def sortPairs : List (ℕ × ℕ) → List (ℕ × ℕ)
  | [] => []
  | x :: xs => sortedInsert x (sortPairs xs)

/-- The per-bet acceptance pattern: wildcard nibble for an unselected
arena, the pirate's single bit otherwise
(`fold(0, |acc, (v, m)| acc | CONVERT_PIR_IB[v] & m)`). -/
def toIbPattern (bet : List ℕ) : ℕ :=
  (bet.zip BIT_MASKS).foldl
    (fun acc vm => acc ||| (CONVERT_PIR_IB.getD vm.1 0 &&& vm.2)) 0

/-- The first loop of `expand_ib_object`: merge bets with an identical
pattern by summing their odds, then sort. -/
def mergedBets (bets : List (List ℕ)) (bet_odds : List ℕ) : List (ℕ × ℕ) :=
  sortPairs (bets.enum.foldl
    (fun acc kb => insertAdd acc (toIbPattern kb.2) (bet_odds.getD kb.1 0)) [])

/-- `u32` complement (`!ar` in Rust). -/
def Not32 (m : ℕ) : ℕ := 0xFFFFFFFF ^^^ m

/-- One iteration of the `for ar in BIT_MASKS` loop: state is
`(res, ib_key)`; on a doable leftover `tst` it is inserted and `ib_key`
is advanced to agree with `com` on that arena. -/
def arenaSplit (com val : ℕ) (st : List (ℕ × ℕ) × ℕ) (ar : ℕ) :
    List (ℕ × ℕ) × ℕ :=
  let tst := st.2 ^^^ (com &&& ar)
  if ib_doable tst then
    (mapInsert st.1 tst val, (st.2 &&& Not32 ar) ||| (com &&& ar))
  else st

/-- The body of the `for mut ib_key in drained_elements` loop. -/
def processKey (ib_bet winnings : ℕ) (res : List (ℕ × ℕ)) (ib_key : ℕ) :
    List (ℕ × ℕ) :=
  let com := ib_bet &&& ib_key
  let val_key := mapGetD res ib_key 0
  let res1 := mapInsert (mapRemove res ib_key) com (winnings + val_key)
  (BIT_MASKS.foldl (arenaSplit com val_key) (res1, ib_key)).1

/-- The body of the `for (ib_bet, winnings) in bets_to_ib` loop. -/
def processBet (res : List (ℕ × ℕ)) (bw : ℕ × ℕ) : List (ℕ × ℕ) :=
  let drained := (res.map Prod.fst).filter (fun k => ib_doable (bw.1 &&& k))
  drained.foldl (processKey bw.1 bw.2) res

/-- src/math.rs: `expand_ib_object(bets, bet_odds)`. -/
def expand_ib_object (bets : List (List ℕ)) (bet_odds : List ℕ) :
    List (ℕ × ℕ) :=
  (mergedBets bets bet_odds).foldl processBet [(0xFFFFF, 0)]

/-- The region keys of a reducer result. -/
def keysOf (res : List (ℕ × ℕ)) : List ℕ := res.map Prod.fst

example : expand_ib_object [] [] = [(0xFFFFF, 0)] := by decide
example : expand_ib_object [[1, 0, 0, 0, 0]] [2] =
    [(0x8FFFF, 2), (0x7FFFF, 0)] := by decide

lemma keysOf_cons (p : ℕ × ℕ) (l : List (ℕ × ℕ)) :
    keysOf (p :: l) = p.1 :: keysOf l := rfl

lemma mapInsert_append {m : List (ℕ × ℕ)} {k : ℕ} (v : ℕ)
    (h : k ∉ keysOf m) : mapInsert m k v = m ++ [(k, v)] := by
  induction m with
  | nil => rfl
  | cons p rest ih =>
      obtain ⟨k', v'⟩ := p
      simp only [keysOf, List.map_cons, List.mem_cons] at h
      push_neg at h
      have hne : ¬ (k' = k) := fun he => h.1 he.symm
      simp only [mapInsert, if_neg hne, List.cons_append, List.cons.injEq, true_and]
      exact ih (by simpa [keysOf] using h.2)

lemma keysOf_append (a b : List (ℕ × ℕ)) :
    keysOf (a ++ b) = keysOf a ++ keysOf b := by
  simp [keysOf]

lemma keysOf_mapRemove (m : List (ℕ × ℕ)) (k : ℕ) :
    keysOf (mapRemove m k) = (keysOf m).erase k := by
  induction m with
  | nil => rfl
  | cons p rest ih =>
      obtain ⟨k', v'⟩ := p
      by_cases h : k' = k
      · simp [mapRemove, keysOf, h, List.erase_cons]
      · simp only [mapRemove, if_neg h, keysOf, List.map_cons, List.erase_cons]
        rw [if_neg (by simpa using h)]
        simpa [keysOf] using ih

lemma land15_lt : ∀ n, n < 16 → n &&& 15 = n := by decide

lemma nib_bitmask : ∀ i, i < 5 → ∀ j, j < 5 →
    nibAt i (BIT_MASKS.getD j 0) = if i = j then 15 else 0 := by decide

lemma nib_not32_bitmask : ∀ i, i < 5 → ∀ j, j < 5 →
    nibAt i (Not32 (BIT_MASKS.getD j 0)) = if i = j then 0 else 15 := by decide

lemma bitmask_inj : ∀ i, i < 5 → ∀ j, j < 5 →
    BIT_MASKS.getD i 0 = BIT_MASKS.getD j 0 → i = j := by decide

lemma mem_bitmasks {ar : ℕ} (h : ar ∈ BIT_MASKS) :
    ∃ j, j < 5 ∧ ar = BIT_MASKS.getD j 0 := by
  simp only [BIT_MASKS, List.mem_cons, List.not_mem_nil, or_false] at h
  rcases h with rfl | rfl | rfl | rfl | rfl
  · exact ⟨0, by norm_num, rfl⟩
  · exact ⟨1, by norm_num, rfl⟩
  · exact ⟨2, by norm_num, rfl⟩
  · exact ⟨3, by norm_num, rfl⟩
  · exact ⟨4, by norm_num, rfl⟩

lemma nib_comar (com : ℕ) {i j : ℕ} (hi : i < 5) (hj : j < 5) :
    nibAt i (com &&& BIT_MASKS.getD j 0) = if i = j then nibAt i com else 0 := by
  rw [nibAt_land, nib_bitmask i hi j hj]
  by_cases h : i = j
  · rw [if_pos h, if_pos h, land15_lt _ (nib_lt16 i com)]
  · rw [if_neg h, if_neg h, Nat.and_zero]

lemma nib_update (K com : ℕ) {i j : ℕ} (hi : i < 5) (hj : j < 5) :
    nibAt i ((K &&& Not32 (BIT_MASKS.getD j 0)) ||| (com &&& BIT_MASKS.getD j 0)) =
      if i = j then nibAt i com else nibAt i K := by
  rw [nibAt_lor, nibAt_land, nib_not32_bitmask i hi j hj, nib_comar com hi hj]
  by_cases h : i = j
  · rw [if_pos h, if_pos h, if_pos h, Nat.and_zero, Nat.zero_or]
  · rw [if_neg h, if_neg h, if_neg h, land15_lt _ (nib_lt16 i K), Nat.or_zero]

lemma nib_sub_of_land {com K : ℕ} (h : com &&& K = com) (i : ℕ) :
    nibAt i com &&& nibAt i K = nibAt i com := by
  rw [← nibAt_land, h]

/-- The disjointness relation used throughout: no concrete winner
combination is accepted by both regions. -/
def RegDisj (p q : ℕ × ℕ) : Prop :=
  ∀ t, ValidWinner t → ¬ (acc p.1 t ∧ acc q.1 t)

/-- The inner arena loop of `expand_ib_object`, fully characterised: it
appends to `res` a list of doable pieces that partition exactly the part
of the entry region `K` not accepted by `com`. -/
lemma inner_split (com val : ℕ) (hcom20 : In20 com)
    (hcomd : ib_doable com = true) :
    ∀ ars : List ℕ, (∀ ar ∈ ars, ar ∈ BIT_MASKS) →
    ∀ K R, In20 K → ib_doable K = true → com &&& K = com →
    (∀ i, i < 5 → BIT_MASKS.getD i 0 ∈ ars ∨ nibAt i K = nibAt i com) →
    (∀ q ∈ keysOf R, ∀ t, ValidWinner t → acc q t → ¬ (acc K t ∧ ¬ acc com t)) →
    ∃ ps : List (ℕ × ℕ),
      (ars.foldl (arenaSplit com val) (R, K)).1 = R ++ ps ∧
      (∀ p ∈ keysOf ps, In20 p ∧ ib_doable p = true) ∧
      (∀ p ∈ keysOf ps, ∀ t, ValidWinner t → acc p t → (acc K t ∧ ¬ acc com t)) ∧
      (∀ t, ValidWinner t → acc K t → ¬ acc com t → ∃ p ∈ keysOf ps, acc p t) ∧
      List.Pairwise RegDisj ps := by
  intro ars
  induction ars with
  | nil =>
      intro _ K R _ _ _ hagree _
      refine ⟨[], by simp, ?_, ?_, ?_, List.Pairwise.nil⟩
      · intro p hp
        exact absurd hp (by simp [keysOf])
      · intro p hp
        exact absurd hp (by simp [keysOf])
      intro t hv hK hcom'
      exfalso
      apply hcom'
      rw [acc_iff_nib hv] at hK ⊢
      intro i hi
      have he := (hagree i hi).resolve_left (by simp)
      rw [← he]
      exact hK i hi
  | cons ar rest ih =>
      intro har K R hK20 hKd hsub hagree hR
      obtain ⟨j, hj5, rfl⟩ := mem_bitmasks (har ar (List.mem_cons_self ar rest))
      -- abbreviations
      set A := BIT_MASKS.getD j 0 with hA
      have hKdn := (ib_doable_iff K).mp hKd
      have hcomdn := (ib_doable_iff com).mp hcomd
      have hsubn : ∀ i, nibAt i com &&& nibAt i K = nibAt i com :=
        nib_sub_of_land hsub
      have hnib_tst : ∀ i, i < 5 → nibAt i (K ^^^ (com &&& A)) =
          if i = j then nibAt i K ^^^ nibAt i com else nibAt i K := by
        intro i hi
        rw [nibAt_xor, nib_comar com hi hj5]
        by_cases h : i = j
        · rw [if_pos h, if_pos h]
        · rw [if_neg h, if_neg h, Nat.xor_zero]
      by_cases hdo : ib_doable (K ^^^ (com &&& A)) = true
      · -- the leftover piece is doable: it is emitted and the key advances
        set tst := K ^^^ (com &&& A) with htst
        set K' := (K &&& Not32 A) ||| (com &&& A) with hK'
        have hstep : arenaSplit com val (R, K) A = (mapInsert R tst val, K') := by
          simp [arenaSplit, hdo]
        have htst20 : In20 tst := in20_xor hK20 (in20_land_left A hcom20)
        have hK'20 : In20 K' :=
          in20_lor (in20_land_left _ hK20) (in20_land_left A hcom20)
        have hnibK' : ∀ i, i < 5 → nibAt i K' =
            if i = j then nibAt i com else nibAt i K := by
          intro i hi
          exact nib_update K com hi hj5
        -- `tst` accepts exactly: inside `K`, rejected by `com` at arena `j`
        have claim1 : ∀ t, ValidWinner t → (acc tst t ↔
            (acc K t ∧ ¬ accN (nibAt j com) (t.getD j 0))) := by
          intro t hv
          have hx := winner_getD hv hj5
          have hxor := accN_xor (nibAt j K) (nib_lt16 j K) (nibAt j com)
            (nib_lt16 j com) (hsubn j) (t.getD j 0) (by omega) hx.1
          constructor
          · intro h
            rw [acc_iff_nib hv] at h
            have hj' := h j hj5
            rw [hnib_tst j hj5, if_pos rfl] at hj'
            have := hxor.mp hj'
            refine ⟨?_, this.2⟩
            rw [acc_iff_nib hv]
            intro i hi
            by_cases hij : i = j
            · subst hij; exact this.1
            · have hi' := h i hi
              rw [hnib_tst i hi, if_neg hij] at hi'
              exact hi'
          · rintro ⟨hKt, hnc⟩
            rw [acc_iff_nib hv] at hKt ⊢
            intro i hi
            rw [hnib_tst i hi]
            by_cases hij : i = j
            · subst hij
              rw [if_pos rfl]
              exact hxor.mpr ⟨hKt i hi, hnc⟩
            · rw [if_neg hij]
              exact hKt i hi
        -- `K'` accepts exactly: inside `K`, accepted by `com` at arena `j`
        have claim2 : ∀ t, ValidWinner t → (acc K' t ↔
            (acc K t ∧ accN (nibAt j com) (t.getD j 0))) := by
          intro t hv
          constructor
          · intro h
            rw [acc_iff_nib hv] at h
            have hj' := h j hj5
            rw [hnibK' j hj5, if_pos rfl] at hj'
            refine ⟨?_, hj'⟩
            rw [acc_iff_nib hv]
            intro i hi
            by_cases hij : i = j
            · rw [hij]
              exact accN_mono (hsubn j) hj'
            · have hi' := h i hi
              rw [hnibK' i hi, if_neg hij] at hi'
              exact hi'
          · rintro ⟨hKt, hc⟩
            rw [acc_iff_nib hv] at hKt ⊢
            intro i hi
            rw [hnibK' i hi]
            by_cases hij : i = j
            · subst hij; rw [if_pos rfl]; exact hc
            · rw [if_neg hij]; exact hKt i hi
        -- acceptance by `com` forces acceptance at arena `j`
        have com_at_j : ∀ t, ValidWinner t → acc com t →
            accN (nibAt j com) (t.getD j 0) := by
          intro t hv h
          rw [acc_iff_nib hv] at h
          exact h j hj5
        have htstK'disj : ∀ t, ValidWinner t → acc tst t → acc K' t → False := by
          intro t hv h1 h2
          exact ((claim1 t hv).mp h1).2 ((claim2 t hv).mp h2).2
        -- tst is a fresh key: it accepts a winner that no key of R accepts
        have htst_notin : tst ∉ keysOf R := by
          intro hmem
          obtain ⟨t0, hv0, hacc0⟩ := exists_winner hdo
          have h1 := (claim1 t0 hv0).mp hacc0
          have hnotcom : ¬ acc com t0 := fun hc => h1.2 (com_at_j t0 hv0 hc)
          exact hR tst hmem t0 hv0 hacc0 ⟨h1.1, hnotcom⟩
        have hR' : mapInsert R tst val = R ++ [(tst, val)] :=
          mapInsert_append val htst_notin
        have hK'd : ib_doable K' = true := by
          rw [ib_doable_iff]
          intro i hi
          rw [hnibK' i hi]
          by_cases hij : i = j
          · rw [if_pos hij]; exact hcomdn i hi
          · rw [if_neg hij]; exact hKdn i hi
        have hsub' : com &&& K' = com := by
          refine ext20 (in20_land_left K' hcom20) hcom20 ?_
          intro i hi
          rw [nibAt_land, hnibK' i hi]
          by_cases hij : i = j
          · rw [if_pos hij, Nat.and_self]
          · rw [if_neg hij]; exact hsubn i
        have hagree' : ∀ i, i < 5 →
            BIT_MASKS.getD i 0 ∈ rest ∨ nibAt i K' = nibAt i com := by
          intro i hi
          by_cases hij : i = j
          · right; rw [hnibK' i hi, if_pos hij]
          · rcases hagree i hi with hmem | heq
            · rcases List.mem_cons.mp hmem with heq' | hmem'
              · exact absurd (bitmask_inj i hi j hj5 heq') hij
              · exact Or.inl hmem'
            · right; rw [hnibK' i hi, if_neg hij]; exact heq
        have hRd' : ∀ q ∈ keysOf (R ++ [(tst, val)]), ∀ t, ValidWinner t →
            acc q t → ¬ (acc K' t ∧ ¬ acc com t) := by
          intro q hq t hv haccq
          rw [keysOf_append] at hq
          rcases List.mem_append.mp hq with hq | hq
          · rintro ⟨hK't, hnc⟩
            have hKt := ((claim2 t hv).mp hK't).1
            exact hR q hq t hv haccq ⟨hKt, hnc⟩
          · simp only [keysOf, List.map_cons, List.map_nil, List.mem_singleton] at hq
            subst hq
            rintro ⟨hK't, _⟩
            exact htstK'disj t hv haccq hK't
        obtain ⟨ps', hfold, h1, h2, h3, h4⟩ := ih (fun a ha => har a (List.mem_cons_of_mem _ ha))
          K' (R ++ [(tst, val)]) hK'20 hK'd hsub' hagree' hRd'
        refine ⟨(tst, val) :: ps', ?_, ?_, ?_, ?_, ?_⟩
        · rw [List.foldl_cons, hstep, hR', hfold, List.append_assoc]
          rfl
        · intro p hp
          rw [keysOf_cons] at hp
          rcases List.mem_cons.mp hp with hp' | hp'
          · subst hp'
            exact ⟨htst20, hdo⟩
          · exact h1 p hp'
        · intro p hp t hv haccp
          rw [keysOf_cons] at hp
          rcases List.mem_cons.mp hp with hp' | hp'
          · subst hp'
            have h := (claim1 t hv).mp haccp
            exact ⟨h.1, fun hc => h.2 (com_at_j t hv hc)⟩
          · have h := h2 p hp' t hv haccp
            exact ⟨((claim2 t hv).mp h.1).1, h.2⟩
        · intro t hv hKt hnc
          by_cases hQ : accN (nibAt j com) (t.getD j 0)
          · obtain ⟨p, hp, haccp⟩ := h3 t hv ((claim2 t hv).mpr ⟨hKt, hQ⟩) hnc
            refine ⟨p, ?_, haccp⟩
            rw [keysOf_cons]
            exact List.mem_cons_of_mem _ hp
          · refine ⟨tst, ?_, (claim1 t hv).mpr ⟨hKt, hQ⟩⟩
            rw [keysOf_cons]
            exact List.mem_cons_self _ _
        · refine List.Pairwise.cons ?_ h4
          intro q hq t hv
          rintro ⟨hacct, haccq⟩
          have hqk : q.1 ∈ keysOf ps' := List.mem_map_of_mem Prod.fst hq
          have h := h2 q.1 hqk t hv haccq
          exact htstK'disj t hv hacct h.1
      · -- the leftover is empty: `K` already agrees with `com` on arena `j`
        have hstep : arenaSplit com val (R, K) A = (R, K) := by
          simp [arenaSplit, hdo]
        have hKeqcom : nibAt j K = nibAt j com := by
          have hnd := hdo
          rw [ib_doable_iff] at hnd
          push_neg at hnd
          obtain ⟨i, hi, hz⟩ := hnd
          rw [hnib_tst i hi] at hz
          by_cases hij : i = j
          · subst hij
            rw [if_pos rfl] at hz
            exact Nat.xor_eq_zero.mp hz
          · rw [if_neg hij] at hz
            exact absurd hz (hKdn i hi)
        have hagree' : ∀ i, i < 5 →
            BIT_MASKS.getD i 0 ∈ rest ∨ nibAt i K = nibAt i com := by
          intro i hi
          by_cases hij : i = j
          · right; rw [hij]; exact hKeqcom
          · rcases hagree i hi with hmem | heq
            · rcases List.mem_cons.mp hmem with heq' | hmem'
              · exact absurd (bitmask_inj i hi j hj5 heq') hij
              · exact Or.inl hmem'
            · exact Or.inr heq
        obtain ⟨ps', hfold, h1, h2, h3, h4⟩ := ih (fun a ha => har a (List.mem_cons_of_mem _ ha))
          K R hK20 hKd hsub hagree' hR
        exact ⟨ps', by rw [List.foldl_cons, hstep]; exact hfold, h1, h2, h3, h4⟩

/-- The partition invariant maintained by the reducer: every region key is
a doable 20-bit mask, keys are distinct, no two keys share an accepted
winner combination, and the keys jointly cover all winner combinations. -/
def Inv (res : List (ℕ × ℕ)) : Prop :=
  (∀ k ∈ keysOf res, In20 k ∧ ib_doable k = true) ∧
  (keysOf res).Nodup ∧
  (∀ k ∈ keysOf res, ∀ k' ∈ keysOf res, k ≠ k' →
    ∀ t, ValidWinner t → ¬ (acc k t ∧ acc k' t)) ∧
  (∀ t, ValidWinner t → ∃ k ∈ keysOf res, acc k t)

lemma pairwise_keys_of_regdisj {ps : List (ℕ × ℕ)}
    (h : List.Pairwise RegDisj ps) :
    (keysOf ps).Pairwise (fun a b => ∀ t, ValidWinner t → ¬ (acc a t ∧ acc b t)) := by
  rw [keysOf, List.pairwise_map]
  exact h

/-- Processing one drained key preserves the invariant and keeps every
other existing key in the map. -/
lemma processKey_inv {b w : ℕ} {res : List (ℕ × ℕ)} {k : ℕ}
    (hInv : Inv res) (hk : k ∈ keysOf res) (hd : ib_doable (b &&& k) = true) :
    Inv (processKey b w res k) ∧
    ∀ k', k' ∈ keysOf res → k' ≠ k → k' ∈ keysOf (processKey b w res k) := by
  obtain ⟨hbd, hnd, hpw, hcov⟩ := hInv
  obtain ⟨hk20, hkd⟩ := hbd k hk
  have hcom20 : In20 (b &&& k) := in20_land_right b hk20
  have hcomsub : (b &&& k) &&& k = b &&& k := by
    rw [Nat.land_assoc, Nat.and_self]
  have hcomk : ∀ t, acc (b &&& k) t → acc k t := fun t h =>
    acc_of_acc_land_right h
  have hkeys1 : keysOf (mapRemove res k) = (keysOf res).erase k :=
    keysOf_mapRemove res k
  have hknotmem : k ∉ (keysOf res).erase k := hnd.not_mem_erase
  -- `com` is not an existing key (other than possibly `k` itself, removed)
  have hcom_notin : (b &&& k) ∉ keysOf (mapRemove res k) := by
    rw [hkeys1]
    intro hmem
    by_cases hck : b &&& k = k
    · rw [hck] at hmem
      exact hknotmem hmem
    · obtain ⟨t, hv, hacc⟩ := exists_winner hd
      exact hpw (b &&& k) (List.mem_of_mem_erase hmem) k hk hck t hv
        ⟨hacc, hcomk t hacc⟩
  have hins : mapInsert (mapRemove res k) (b &&& k) (w + mapGetD res k 0) =
      mapRemove res k ++ [(b &&& k, w + mapGetD res k 0)] :=
    mapInsert_append _ hcom_notin
  -- the no-overlap hypothesis needed by `inner_split`
  have hR1 : ∀ q ∈ keysOf (mapRemove res k ++ [(b &&& k, w + mapGetD res k 0)]),
      ∀ t, ValidWinner t → acc q t → ¬ (acc k t ∧ ¬ acc (b &&& k) t) := by
    intro q hq t hv haccq
    rw [keysOf_append, hkeys1] at hq
    rcases List.mem_append.mp hq with hq | hq
    · rintro ⟨hkt, _⟩
      by_cases hqk : q = k
      · subst hqk
        exact hknotmem hq
      · exact hpw q (List.mem_of_mem_erase hq) k hk hqk t hv ⟨haccq, hkt⟩
    · have hq' : q = b &&& k := by simpa [keysOf] using hq
      subst hq'
      rintro ⟨_, hnc⟩
      exact hnc haccq
  have hagree0 : ∀ i, i < 5 →
      BIT_MASKS.getD i 0 ∈ BIT_MASKS ∨ nibAt i k = nibAt i (b &&& k) := by
    intro i hi
    left
    interval_cases i <;> simp [BIT_MASKS]
  obtain ⟨ps, hfold, h1, h2, h3, h4⟩ :=
    inner_split (b &&& k) (mapGetD res k 0) hcom20 hd BIT_MASKS
      (fun _ h => h) k (mapRemove res k ++ [(b &&& k, w + mapGetD res k 0)])
      hk20 hkd hcomsub hagree0 hR1
  have hpk : processKey b w res k =
      (mapRemove res k ++ [(b &&& k, w + mapGetD res k 0)]) ++ ps := by
    show (BIT_MASKS.foldl (arenaSplit (b &&& k) (mapGetD res k 0))
      (mapInsert (mapRemove res k) (b &&& k) (w + mapGetD res k 0), k)).1 = _
    rw [hins]
    exact hfold
  have hKS : keysOf (processKey b w res k) =
      ((keysOf res).erase k ++ [b &&& k]) ++ keysOf ps := by
    rw [hpk, keysOf_append, keysOf_append, hkeys1]
    rfl
  -- classification of the new keys and what their regions accept
  have hclass : ∀ q ∈ keysOf (processKey b w res k),
      q ∈ (keysOf res).erase k ∨ q = b &&& k ∨ q ∈ keysOf ps := by
    intro q hq
    rw [hKS] at hq
    rcases List.mem_append.mp hq with hq | hq
    · rcases List.mem_append.mp hq with hq | hq
      · exact Or.inl hq
      · exact Or.inr (Or.inl (by simpa using hq))
    · exact Or.inr (Or.inr hq)
  -- an accepted winner of any *new* sub-region of `k` is a winner of `k`
  have hnew_acc : ∀ q, (q = b &&& k ∨ q ∈ keysOf ps) →
      ∀ t, ValidWinner t → acc q t → acc k t := by
    intro q hq t hv haccq
    rcases hq with rfl | hq
    · exact hcomk t haccq
    · exact (h2 q hq t hv haccq).1
  -- old keys other than `k` never overlap a new sub-region of `k`
  have hold_new : ∀ q ∈ (keysOf res).erase k, ∀ q',
      (q' = b &&& k ∨ q' ∈ keysOf ps) → ∀ t, ValidWinner t →
      ¬ (acc q t ∧ acc q' t) := by
    intro q hq q' hq' t hv
    rintro ⟨haccq, haccq'⟩
    by_cases hqk : q = k
    · subst hqk
      exact hknotmem hq
    · exact hpw q (List.mem_of_mem_erase hq) k hk hqk t hv
        ⟨haccq, hnew_acc q' hq' t hv haccq'⟩
  -- `com` and the pieces never overlap
  have hcom_ps : ∀ q ∈ keysOf ps, ∀ t, ValidWinner t →
      ¬ (acc (b &&& k) t ∧ acc q t) := by
    intro q hq t hv
    rintro ⟨hacc1, hacc2⟩
    exact (h2 q hq t hv hacc2).2 hacc1
  -- distinct pieces never overlap
  have hps_pw : ∀ q ∈ keysOf ps, ∀ q' ∈ keysOf ps, q ≠ q' →
      ∀ t, ValidWinner t → ¬ (acc q t ∧ acc q' t) := by
    have hsym : Symmetric (fun a b : ℕ =>
        ∀ t, ValidWinner t → ¬ (acc a t ∧ acc b t)) := by
      intro a b h t hv
      rintro ⟨h1, h2'⟩
      exact h t hv ⟨h2', h1⟩
    intro q hq q' hq' hne
    exact List.Pairwise.forall hsym (pairwise_keys_of_regdisj h4) hq hq' hne
  -- pieces are fresh keys (they overlap nothing they would collide with)
  have hps_fresh : ∀ q ∈ keysOf ps, q ∉ (keysOf res).erase k ∧ q ≠ b &&& k := by
    intro q hq
    obtain ⟨t, hv, hacc⟩ := exists_winner (h1 q hq).2
    constructor
    · intro hmem
      exact hold_new q hmem q (Or.inr hq) t hv ⟨hacc, hacc⟩
    · intro he
      exact hcom_ps q hq t hv ⟨he ▸ hacc, hacc⟩
  constructor
  · refine ⟨?_, ?_, ?_, ?_⟩
    · -- bounds and doability
      intro q hq
      rcases hclass q hq with hq' | hq' | hq'
      · exact hbd q (List.mem_of_mem_erase hq')
      · subst hq'
        exact ⟨hcom20, hd⟩
      · exact h1 q hq'
    · -- distinct keys
      rw [hKS]
      have hn1 : ((keysOf res).erase k ++ [b &&& k]).Nodup := by
        refine (hnd.erase k).append (by simp) ?_
        intro a ha hb
        have : a = b &&& k := by simpa using hb
        subst this
        rw [← hkeys1] at ha
        exact hcom_notin ha
      have hn2 : (keysOf ps).Nodup := by
        show List.Pairwise (fun a b => a ≠ b) (ps.map Prod.fst)
        refine (List.pairwise_map).mpr ?_
        refine List.Pairwise.imp_of_mem ?_ h4
        intro p q hp hq hr heq
        obtain ⟨t, hv, hacc⟩ :=
          exists_winner (h1 p.1 (List.mem_map_of_mem Prod.fst hp)).2
        exact hr t hv ⟨hacc, heq ▸ hacc⟩
      refine hn1.append hn2 ?_
      intro a ha hb
      obtain ⟨hnot1, hnot2⟩ := hps_fresh a hb
      rcases List.mem_append.mp ha with ha' | ha'
      · exact hnot1 ha'
      · exact hnot2 (by simpa using ha')
    · -- pairwise disjoint regions
      intro q hq q' hq' hne t hv
      rcases hclass q hq with hq1 | hq1 | hq1 <;>
        rcases hclass q' hq' with hq2 | hq2 | hq2
      · -- old / old
        rintro ⟨h1', h2'⟩
        by_cases hqk : q = k
        · exact hknotmem (hqk ▸ hq1)
        · by_cases hq'k : q' = k
          · exact hknotmem (hq'k ▸ hq2)
          · exact hpw q (List.mem_of_mem_erase hq1) q' (List.mem_of_mem_erase hq2)
              hne t hv ⟨h1', h2'⟩
      · exact hold_new q hq1 q' (Or.inl hq2) t hv
      · exact hold_new q hq1 q' (Or.inr hq2) t hv
      · rintro ⟨h1', h2'⟩
        exact hold_new q' hq2 q (Or.inl hq1) t hv ⟨h2', h1'⟩
      · exact absurd (hq1.trans hq2.symm) hne
      · subst hq1
        exact hcom_ps q' hq2 t hv
      · rintro ⟨h1', h2'⟩
        exact hold_new q' hq2 q (Or.inr hq1) t hv ⟨h2', h1'⟩
      · subst hq2
        rintro ⟨h1', h2'⟩
        exact hcom_ps q hq1 t hv ⟨h2', h1'⟩
      · exact hps_pw q hq1 q' hq2 hne t hv
    · -- cover
      intro t hv
      obtain ⟨k0, hk0, hacck0⟩ := hcov t hv
      by_cases hk0k : k0 = k
      · by_cases hct : acc (b &&& k) t
        · refine ⟨b &&& k, ?_, hct⟩
          rw [hKS]
          exact List.mem_append_left _ (List.mem_append_right _ (by simp))
        · obtain ⟨p, hp, haccp⟩ := h3 t hv (hk0k ▸ hacck0) hct
          refine ⟨p, ?_, haccp⟩
          rw [hKS]
          exact List.mem_append_right _ hp
      · refine ⟨k0, ?_, hacck0⟩
        rw [hKS]
        exact List.mem_append_left _
          (List.mem_append_left _ ((List.mem_erase_of_ne hk0k).mpr hk0))
  · -- every other key survives
    intro k' hk' hk'ne
    rw [hKS]
    exact List.mem_append_left _
      (List.mem_append_left _ ((List.mem_erase_of_ne hk'ne).mpr hk'))

lemma foldl_drained_inv (b w : ℕ) :
    ∀ ds : List ℕ, ∀ res, Inv res → ds.Nodup →
    (∀ k ∈ ds, k ∈ keysOf res ∧ ib_doable (b &&& k) = true) →
    Inv (ds.foldl (processKey b w) res) := by
  intro ds
  induction ds with
  | nil =>
      intro res h _ _
      exact h
  | cons k rest ih =>
      intro res hInv hnd hmem
      rw [List.foldl_cons]
      have hk := hmem k (List.mem_cons_self k rest)
      obtain ⟨hInv', hsurv⟩ := processKey_inv hInv hk.1 hk.2
      refine ih (processKey b w res k) hInv' (List.Nodup.of_cons hnd) ?_
      intro k' hk'
      have hmem' := hmem k' (List.mem_cons_of_mem _ hk')
      have hne : k' ≠ k := by
        rintro rfl
        exact (List.nodup_cons.mp hnd).1 hk'
      exact ⟨hsurv k' hmem'.1 hne, hmem'.2⟩

lemma processBet_inv (res : List (ℕ × ℕ)) (bw : ℕ × ℕ) (hInv : Inv res) :
    Inv (processBet res bw) := by
  show Inv (((res.map Prod.fst).filter
    (fun k => ib_doable (bw.1 &&& k))).foldl (processKey bw.1 bw.2) res)
  refine foldl_drained_inv bw.1 bw.2 _ res hInv (hInv.2.1.filter _) ?_
  intro k hk
  obtain ⟨hmem, hp⟩ := List.mem_filter.mp hk
  exact ⟨hmem, hp⟩

/-- The partition invariant holds for the final reducer output, for any
input bet list whatsoever. -/
lemma expand_inv (bets : List (List ℕ)) (bet_odds : List ℕ) :
    Inv (expand_ib_object bets bet_odds) := by
  have hinit : Inv [(0xFFFFF, 0)] := by
    refine ⟨?_, by simp [keysOf], ?_, ?_⟩
    · intro q hq
      have hq' : q = 0xFFFFF := by simpa [keysOf] using hq
      subst hq'
      exact ⟨by decide, by decide⟩
    · intro q hq q' hq' hne t hv
      have h1 : q = 0xFFFFF := by simpa [keysOf] using hq
      have h2 : q' = 0xFFFFF := by simpa [keysOf] using hq'
      exact absurd (h1.trans h2.symm) hne
    · intro t hv
      refine ⟨0xFFFFF, by simp [keysOf], ?_⟩
      obtain ⟨a, b, c, d, e, rfl⟩ := list_len5 hv.1
      exact pb_in20 a b c d e
  have hfold : ∀ l : List (ℕ × ℕ), ∀ res, Inv res →
      Inv (l.foldl processBet res) := by
    intro l
    induction l with
    | nil =>
        intro res h
        exact h
    | cons bw rest ih =>
        intro res h
        rw [List.foldl_cons]
        exact ih _ (processBet_inv res bw h)
  exact hfold _ _ hinit

/-! ### Search-space table (src/math.rs: `make_round_dicts`)

`f64` probability arithmetic is embedded as exact `ℚ`; the 5×5 input
matrices are embedded as functions (only indices `< 5` are ever used).
The five nested `for` loops pushing to five parallel `Vec`s become maps
over the lexicographic enumeration of the 3,125 tuples with the all-zero
tuple filtered out. -/

/-- Innermost loop of the tuple enumeration: `e` ranges over `{0..4}`. -/
def tl4 (a b c d : ℕ) : List (List ℕ) := (List.range 5).map fun e => [a, b, c, d, e]

/-- Loop over `d`. -/
def tl3 (a b c : ℕ) : List (List ℕ) := (List.range 5).flatMap fun d => tl4 a b c d

/-- Loop over `c`. -/
def tl2 (a b : ℕ) : List (List ℕ) := (List.range 5).flatMap fun c => tl3 a b c

/-- Loop over `b`. -/
def tl1 (a : ℕ) : List (List ℕ) := (List.range 5).flatMap fun b => tl2 a b

/-- The lexicographic enumeration of `{0..4}^5` produced by the five
nested loops of `make_round_dicts`. -/
def tuples5 : List (List ℕ) := (List.range 5).flatMap tl1

/-- src/math.rs: `RoundDictData`. -/
structure RoundDictData where
  bins : List ℕ
  probs : List ℚ
  odds : List ℕ
  ers : List ℚ
  maxbets : List ℕ
deriving DecidableEq

/-- The per-tuple `(total_probs, total_odds)` fold of `make_round_dicts`
(an arena with index 0 contributes the identity factors). -/
def tuple_prob_odds (stds : ℕ → ℕ → ℚ) (odds : ℕ → ℕ → ℕ) (t : List ℕ) :
    ℚ × ℕ :=
  t.enum.foldl
    (fun po p => if p.2 = 0 then po
      else (po.1 * stds p.1 p.2, po.2 * odds p.1 p.2)) (1, 1)

/-- src/math.rs: `make_round_dicts(stds, odds)`.  `maxbet` is the exact
ceiling `⌈1,000,000 / odds⌉` computed by the `f64` expression in the
source. -/
def make_round_dicts (stds : ℕ → ℕ → ℚ) (odds : ℕ → ℕ → ℕ) : RoundDictData :=
  let valid := tuples5.filter (fun t => t != [0, 0, 0, 0, 0])
  { bins := valid.map pirates_binary
    probs := valid.map (fun t => (tuple_prob_odds stds odds t).1)
    odds := valid.map (fun t => (tuple_prob_odds stds odds t).2)
    ers := valid.map (fun t =>
      (tuple_prob_odds stds odds t).1 * ((tuple_prob_odds stds odds t).2 : ℚ))
    maxbets := valid.map (fun t =>
      (1000000 + (tuple_prob_odds stds odds t).2 - 1) /
        (tuple_prob_odds stds odds t).2) }

/-! ### Amounts codec (src/math.rs: `bet_amounts_to_amounts_hash`,
`amounts_hash_to_bet_amounts`) -/

/-- The base-52 digit to letter map of the encoder. -/
def encode_letter (li : ℕ) : Char :=
  if li < 26 then Char.ofNat (li + 97) else Char.ofNat (li + 65 - 26)

/-- The encoder's inner loop: `n` base-52 digits of `state`, most
significant first (the source fills the output array from the back; per
value this yields exactly the three digits in most-significant-first
order). -/
def amount_chars : ℕ → ℕ → List Char
  | 0, _ => []
  | n + 1, state => amount_chars n (state / 52) ++ [encode_letter (state % 52)]

/-- src/math.rs: `bet_amounts_to_amounts_hash(bet_amounts)`: concatenation
of the 3-character groups in input order (`None` encodes like `0`). -/
def bet_amounts_to_amounts_hash (bet_amounts : List (Option ℕ)) : List Char :=
  bet_amounts.flatMap
    (fun value => amount_chars 3 (value.getD 0 % BET_AMOUNT_MAX + BET_AMOUNT_MAX))

/-- Membership in the decoder's accepted alphabet (`^[a-zA-Z]*$`). -/
def is_alpha_char (c : Char) : Bool :=
  (decide ('a' ≤ c) && decide (c ≤ 'z')) || (decide ('A' ≤ c) && decide (c ≤ 'Z'))

/-- The decoder's letter-to-digit map (`b'a'..=b'z'` branch, else the
uppercase branch). -/
def char_index (c : Char) : ℕ :=
  if 'a' ≤ c ∧ c ≤ 'z' then c.toNat - 97 else c.toNat - 65 + 26

/-- `slice::chunks(3)`: greedy 3-element chunks, the last possibly
shorter. -/
def chunks3 : List Char → List (List Char)
  | [] => []
  | [a] => [[a]]
  | [a, b] => [[a, b]]
  | a :: b :: c :: rest => [a, b, c] :: chunks3 rest

/-- The decoder's per-chunk computation: base-52 value, saturating
subtraction of `BET_AMOUNT_MAX` (ℕ subtraction is saturating), then the
`>= BET_AMOUNT_MIN` filter. -/
def decode_chunk (chunk : List Char) : Option ℕ :=
  let value := chunk.foldl (fun v b => v * 52 + char_index b) 0
  let value := value - BET_AMOUNT_MAX
  if BET_AMOUNT_MIN ≤ value then some value else none

/-- src/math.rs: `amounts_hash_to_bet_amounts(amounts_hash)`. -/
def amounts_hash_to_bet_amounts (amounts_hash : List Char) :
    Except String (List (Option ℕ)) :=
  if amounts_hash.all is_alpha_char then
    Except.ok ((chunks3 amounts_hash).map decode_chunk)
  else
    Except.error "Invalid amounts hash. Must contain only characters a-z and A-Z."

/-! ### Chance distribution (src/chance.rs, src/math.rs:
`build_chance_objects`) -/

/-- src/chance.rs: `Chance` (probabilities as exact `ℚ`). -/
structure Chance where
  value : ℕ
  probability : ℚ
  cumulative : ℚ
  tail : ℚ
deriving DecidableEq

/-- src/math.rs: `ib_prob(binary, probabilities)`. -/
def ib_prob (binary : ℕ) (probabilities : ℕ → ℕ → ℚ) : ℚ :=
  BIT_MASKS.enum.foldl
    (fun total_prob xm =>
      total_prob * ((PIR_IB.enum.map (fun yp =>
        if 0 < binary &&& xm.2 &&& yp.2 then probabilities xm.1 (yp.1 + 1)
        else 0)).sum)) 1

/-- Insertion into a sorted list of naturals. -/
def sortedInsertNat (x : ℕ) : List ℕ → List ℕ
  | [] => [x]
  | y :: ys => if x ≤ y then x :: y :: ys else y :: sortedInsertNat x ys

/-- Insertion sort on naturals. -/
def sortNat : List ℕ → List ℕ
  | [] => []
  | x :: xs => sortedInsertNat x (sortNat xs)

/-- The ascending list of distinct payout values of the reducer output
(the iteration order of the `BTreeMap<u32, f64>` win table). -/
def win_values (expanded : List (ℕ × ℕ)) : List ℕ :=
  sortNat (expanded.map Prod.snd).dedup

/-- src/math.rs: `build_chance_objects(bets, bet_odds, probabilities)`:
group regions by payout into the sorted win table, then walk it
accumulating `cumulative` and decrementing `tail`. -/
def build_chance_objects (bets : List (List ℕ)) (bet_odds : List ℕ)
    (probabilities : ℕ → ℕ → ℚ) : List Chance :=
  let expanded := expand_ib_object bets bet_odds
  let win_table : List (ℕ × ℚ) := (win_values expanded).map (fun v =>
    (v, ((expanded.filter (fun kv => kv.2 == v)).map
      (fun kv => ib_prob kv.1 probabilities)).sum))
  (win_table.foldl
    (fun st kv =>
      (st.1 + kv.2, (st.2.1 - kv.2, st.2.2 ++ [⟨kv.1, kv.2, st.1 + kv.2, st.2.1⟩])))
    ((0 : ℚ), ((1 : ℚ), ([] : List Chance)))).2.2

/-! ### Odds summary (src/odds.rs: `Odds::new`)

The two `.expect(...)` panics become `Option` failure (`none`). -/

/-- src/odds.rs: `Odds`. -/
structure OddsM where
  best : Chance
  bust : Option Chance
  most_likely_winner : Chance
  partial_rate : ℚ
  chances : List Chance
deriving DecidableEq

/-- `iter().max_by(|a, b| a.probability.total_cmp(&b.probability))`:
`none` on an empty list, otherwise the last element of maximal
probability. -/
def maxByProb : List Chance → Option Chance
  | [] => none
  | c :: rest =>
      some (rest.foldl (fun a b => if b.probability < a.probability then a else b) c)

/-- src/odds.rs: `Odds::new(nfc, array_indices)`, parametrised by the
round table and probability matrix the `NeoFoodClub` value supplies.
Returns `none` exactly when one of the two `.expect(...)` calls would
panic. -/
def OddsM.new (data : RoundDictData) (probabilities : ℕ → ℕ → ℚ)
    (array_indices : List ℕ) : Option OddsM :=
  let pirate_indices := array_indices.map
    (fun i => binary_to_indices (data.bins.getD i 0))
  let odds_values := array_indices.map (fun i => data.odds.getD i 0)
  let chances := build_chance_objects pirate_indices odds_values probabilities
  match chances.getLast?,
    maxByProb (chances.filter (fun c => decide (0 < c.value))) with
  | some best, some mlw =>
      some { best := best
             bust := chances.head?.bind
               (fun c => if c.value = 0 then some c else none)
             most_likely_winner := mlw
             partial_rate := ((chances.filter (fun c =>
               decide (0 < c.value) &&
                 decide (c.value < array_indices.length))).map
               (fun c => c.probability)).sum
             chances := chances }
  | _, _ => none

/-! ### Bets (src/bets.rs) -/

/-- src/bets.rs: `BetAmounts` (the Rust variant `None` is `noAmounts`). -/
inductive BetAmountsM where
  | amountHash (h : List Char)
  | amounts (l : List (Option ℕ))
  | allSame (n : ℕ)
  | noAmounts
deriving DecidableEq

/-- `u32::clamp(BET_AMOUNT_MIN, BET_AMOUNT_MAX)`. -/
def clamp_amount (x : ℕ) : ℕ :=
  if x < BET_AMOUNT_MIN then BET_AMOUNT_MIN
  else if BET_AMOUNT_MAX < x then BET_AMOUNT_MAX else x

/-- src/bets.rs: `BetAmounts::clean_amounts`: drop trailing `None`s (the
`while cleaned.last() == Some(&None) pop` loop). -/
def clean_amounts (amounts : List (Option ℕ)) : List (Option ℕ) :=
  (amounts.reverse.dropWhile (fun a => a.isNone)).reverse

/-- src/bets.rs: `BetAmounts::to_vec(length)`. -/
def BetAmountsM.to_vec : BetAmountsM → ℕ → Except String (Option (List (Option ℕ)))
  | .amountHash h, _ =>
      match amounts_hash_to_bet_amounts h with
      | .error e => .error e
      | .ok decoded => .ok (some (clean_amounts decoded))
  | .amounts l, _ => .ok (some (clean_amounts l))
  | .allSame amount, length =>
      if length = 0 then .ok none
      else .ok (some (List.replicate length (some (clamp_amount amount))))
  | .noAmounts, _ => .ok none

/-- Whether a `BetAmountsM` is the `AllSame` variant
(`matches!(betamount, BetAmounts::AllSame(_))`). -/
def BetAmountsM.isAllSame : BetAmountsM → Bool
  | .allSame _ => true
  | _ => false

/-- src/bets.rs: `Bets`. -/
structure BetsM where
  array_indices : List ℕ
  bet_binaries : List ℕ
  bet_amounts : Option (List (Option ℕ))
  odds : OddsM
deriving DecidableEq

/-- src/bets.rs: `Bets::set_bet_amounts`. -/
def BetsM.set_bet_amounts (b : BetsM) (amounts : Option BetAmountsM) :
    Except String BetsM :=
  match amounts with
  | none => .ok { b with bet_amounts := none }
  | some betamount =>
      match betamount.to_vec b.array_indices.length with
      | .error e => .error e
      | .ok none => .ok { b with bet_amounts := none }
      | .ok (some amounts) =>
          if !betamount.isAllSame && amounts.length != b.array_indices.length then
            .error "Bet amounts must be the same length as bet indices, or None."
          else
            .ok { b with bet_amounts := some (amounts.map (fun x => x.map clamp_amount)) }

/-- src/bets.rs: `Bets::set_bet_amount_all_same`. -/
def BetsM.set_bet_amount_all_same (b : BetsM) (amount : ℕ) : BetsM :=
  if b.array_indices.isEmpty then { b with bet_amounts := none }
  else { b with bet_amounts := some (List.replicate b.array_indices.length (some (clamp_amount amount))) }

/-- src/bets.rs: `Bets::new_with_amount`, applied to the `Bets::new`
result `b` (whose `bet_amounts` is `None`). -/
def BetsM.new_with_amount (b : BetsM) (amount : Option ℕ) : BetsM :=
  match amount with
  | some amt => b.set_bet_amount_all_same amt
  | none => b

/-- src/bets.rs: `Bets::is_bustproof`. -/
def BetsM.is_bustproof (b : BetsM) : Bool := b.odds.bust.isNone

/-- src/bets.rs: `Bets::odds_values(nfc)`. -/
def BetsM.odds_values (b : BetsM) (data : RoundDictData) : List ℕ :=
  b.array_indices.map (fun i => data.odds.getD i 0)

/-- src/bets.rs: `Bets::is_guaranteed_win(nfc)`; `none` models the
`.unwrap()` panic on an empty amounts list. The `odds * amount` product
is a `u32` multiplication in the source, so it wraps modulo `2^32`. -/
def BetsM.is_guaranteed_win (b : BetsM) (data : RoundDictData) : Option Bool :=
  if !b.is_bustproof then some false
  else match b.bet_amounts with
    | none => some false
    | some amounts =>
        if amounts.any (fun a => a.isNone) then some false
        else
          match (amounts.reduceOption).max?,
            (((b.odds_values data).zip amounts.reduceOption).map
              (fun oa => oa.1 * oa.2 % 4294967296)).min? with
          | some hi, some lo => some (decide (hi < lo))
          | _, _ => none

/-- src/bets.rs: the index lookup of `Bets::from_binaries`
(`binaries.iter().filter_map(|b| data.bins.iter().position(|bin| bin == b))`). -/
def from_binaries_indices (data : RoundDictData) (binaries : List ℕ) : List ℕ :=
  binaries.filterMap (fun b => data.bins.findIdx? (fun bin => bin == b))

/-- The `bet_binaries` of the `Bets` value built by `Bets::from_binaries`
(`Bets::new` maps each kept index back through `data.bins`). -/
def from_binaries_bet_binaries (data : RoundDictData) (binaries : List ℕ) :
    List ℕ :=
  (from_binaries_indices data binaries).map (fun i => data.bins.getD i 0)

example : pirate_binary 3 2 = 0x200 := by decide
example : pirates_binary [0, 1, 2, 3, 4] = 0x08421 := by decide
example : binary_to_indices 1 = [0, 0, 0, 0, 4] := by decide
example : pirates_binary [1, 0, 0, 0, 0] = 0x80000 := by decide
example : binary_to_indices 0x80000 = [1, 0, 0, 0, 0] := by decide
example : ib_doable 0xFFFFF = true := by decide
example : ib_doable 0x80000 = false := by decide


/-! ## Claim theorems -/

lemma selBit_decode : ∀ x, x < 5 →
    (if selBit x ≠ 0 then 4 - trailing_zeros32 (selBit x) else 0) = x := by
  decide

/-- `binary_to_indices` inverts `pirates_binary` on every 5-entry
selection with entries `≤ 4` (the all-zero selection included). -/
lemma roundtrip_aux {t : List ℕ} (hlen : t.length = 5)
    (hmem : ∀ x ∈ t, x ≤ 4) :
    binary_to_indices (pirates_binary t) = t := by
  obtain ⟨a, b, c, d, e, rfl⟩ := list_len5 hlen
  have ha : a < 5 := by have := hmem a (by simp); omega
  have hb : b < 5 := by have := hmem b (by simp); omega
  have hc : c < 5 := by have := hmem c (by simp); omega
  have hd : d < 5 := by have := hmem d (by simp); omega
  have he : e < 5 := by have := hmem e (by simp); omega
  have hnib := nib_pb a b c d e ha hb hc hd he
  unfold binary_to_indices
  rw [show List.range 5 = [0, 1, 2, 3, 4] from rfl]
  simp only [List.map_cons, List.map_nil]
  rw [hnib 0 (by norm_num), hnib 1 (by norm_num), hnib 2 (by norm_num),
    hnib 3 (by norm_num), hnib 4 (by norm_num)]
  simp only [List.getD_cons_zero, List.getD_cons_succ]
  rw [selBit_decode a ha, selBit_decode b hb, selBit_decode c hc,
    selBit_decode d hd, selBit_decode e he]

/-- C5: for every valid selection (5 entries in {0..4}, at least one
non-zero), `binary_to_indices (pirates_binary s) = s`; in particular
`pirates_binary [1,0,0,0,0] = 0x80000` and
`binary_to_indices 0x80000 = [1,0,0,0,0]`. -/
theorem binary_indices_roundtrip (t : List ℕ) (hlen : t.length = 5)
    (hmem : ∀ x ∈ t, x ≤ 4) (hnz : ∃ x ∈ t, x ≠ 0) :
    binary_to_indices (pirates_binary t) = t ∧
    pirates_binary [1, 0, 0, 0, 0] = 0x80000 ∧
    binary_to_indices 0x80000 = [1, 0, 0, 0, 0] :=
  ⟨roundtrip_aux hlen hmem, by decide, by decide⟩

theorem binary_indices_roundtrip_witness :
    binary_to_indices (pirates_binary [1, 2, 3, 4, 0]) = [1, 2, 3, 4, 0] ∧
    pirates_binary [1, 0, 0, 0, 0] = 0x80000 ∧
    binary_to_indices 0x80000 = [1, 0, 0, 0, 0] :=
  binary_indices_roundtrip [1, 2, 3, 4, 0] (by decide) (by decide) (by decide)



lemma mem_tl4 {a b c d : ℕ} {l : List ℕ} :
    l ∈ tl4 a b c d ↔ ∃ e, e < 5 ∧ l = [a, b, c, d, e] := by
  simp [tl4, List.mem_map, List.mem_range, eq_comm]

lemma mem_tl3 {a b c : ℕ} {l : List ℕ} :
    l ∈ tl3 a b c ↔ ∃ d e, d < 5 ∧ e < 5 ∧ l = [a, b, c, d, e] := by
  simp only [tl3, List.mem_flatMap, List.mem_range]
  constructor
  · rintro ⟨d, hd, hm⟩
    obtain ⟨e, he, rfl⟩ := mem_tl4.mp hm
    exact ⟨d, e, hd, he, rfl⟩
  · rintro ⟨d, e, hd, he, rfl⟩
    exact ⟨d, hd, mem_tl4.mpr ⟨e, he, rfl⟩⟩

lemma mem_tl2 {a b : ℕ} {l : List ℕ} :
    l ∈ tl2 a b ↔ ∃ c d e, c < 5 ∧ d < 5 ∧ e < 5 ∧ l = [a, b, c, d, e] := by
  simp only [tl2, List.mem_flatMap, List.mem_range]
  constructor
  · rintro ⟨c, hc, hm⟩
    obtain ⟨d, e, hd, he, rfl⟩ := mem_tl3.mp hm
    exact ⟨c, d, e, hc, hd, he, rfl⟩
  · rintro ⟨c, d, e, hc, hd, he, rfl⟩
    exact ⟨c, hc, mem_tl3.mpr ⟨d, e, hd, he, rfl⟩⟩

lemma mem_tl1 {a : ℕ} {l : List ℕ} :
    l ∈ tl1 a ↔ ∃ b c d e, b < 5 ∧ c < 5 ∧ d < 5 ∧ e < 5 ∧ l = [a, b, c, d, e] := by
  simp only [tl1, List.mem_flatMap, List.mem_range]
  constructor
  · rintro ⟨b, hb, hm⟩
    obtain ⟨c, d, e, hc, hd, he, rfl⟩ := mem_tl2.mp hm
    exact ⟨b, c, d, e, hb, hc, hd, he, rfl⟩
  · rintro ⟨b, c, d, e, hb, hc, hd, he, rfl⟩
    exact ⟨b, hb, mem_tl2.mpr ⟨c, d, e, hc, hd, he, rfl⟩⟩

lemma mem_tuples5 {l : List ℕ} :
    l ∈ tuples5 ↔
      ∃ a b c d e, a < 5 ∧ b < 5 ∧ c < 5 ∧ d < 5 ∧ e < 5 ∧ l = [a, b, c, d, e] := by
  simp only [tuples5, List.mem_flatMap, List.mem_range]
  constructor
  · rintro ⟨a, ha, hm⟩
    obtain ⟨b, c, d, e, hb, hc, hd, he, rfl⟩ := mem_tl1.mp hm
    exact ⟨a, b, c, d, e, ha, hb, hc, hd, he, rfl⟩
  · rintro ⟨a, b, c, d, e, ha, hb, hc, hd, he, rfl⟩
    exact ⟨a, ha, mem_tl1.mpr ⟨b, c, d, e, hb, hc, hd, he, rfl⟩⟩

lemma tl4_nodup (a b c d : ℕ) : (tl4 a b c d).Nodup := by
  refine (List.nodup_range 5).map ?_
  intro x y hxy
  simpa using hxy

lemma tl3_nodup (a b c : ℕ) : (tl3 a b c).Nodup := by
  refine List.nodup_bind.mpr ⟨fun d _ => tl4_nodup a b c d, ?_⟩
  refine (List.pairwise_lt_range 5).imp ?_
  intro d d' hlt t ht ht'
  obtain ⟨e, _, rfl⟩ := mem_tl4.mp ht
  obtain ⟨e', _, heq⟩ := mem_tl4.mp ht'
  have hdd : d = d' ∧ e = e' := by simpa using heq
  exact absurd hdd.1 hlt.ne

lemma tl2_nodup (a b : ℕ) : (tl2 a b).Nodup := by
  refine List.nodup_bind.mpr ⟨fun c _ => tl3_nodup a b c, ?_⟩
  refine (List.pairwise_lt_range 5).imp ?_
  intro c c' hlt t ht ht'
  obtain ⟨d, e, _, _, rfl⟩ := mem_tl3.mp ht
  obtain ⟨d', e', _, _, heq⟩ := mem_tl3.mp ht'
  have hcc : c = c' ∧ d = d' ∧ e = e' := by simpa using heq
  exact absurd hcc.1 hlt.ne

lemma tl1_nodup (a : ℕ) : (tl1 a).Nodup := by
  refine List.nodup_bind.mpr ⟨fun b _ => tl2_nodup a b, ?_⟩
  refine (List.pairwise_lt_range 5).imp ?_
  intro b b' hlt t ht ht'
  obtain ⟨c, d, e, _, _, _, rfl⟩ := mem_tl2.mp ht
  obtain ⟨c', d', e', _, _, _, heq⟩ := mem_tl2.mp ht'
  have hbb : b = b' ∧ c = c' ∧ d = d' ∧ e = e' := by simpa using heq
  exact absurd hbb.1 hlt.ne

lemma tuples5_nodup : tuples5.Nodup := by
  refine List.nodup_bind.mpr ⟨fun a _ => tl1_nodup a, ?_⟩
  refine (List.pairwise_lt_range 5).imp ?_
  intro a a' hlt t ht ht'
  obtain ⟨b, c, d, e, _, _, _, _, rfl⟩ := mem_tl1.mp ht
  obtain ⟨b', c', d', e', _, _, _, _, heq⟩ := mem_tl1.mp ht'
  have haa : a = a' ∧ b = b' ∧ c = c' ∧ d = d' ∧ e = e' := by simpa using heq
  exact absurd haa.1 hlt.ne

lemma flatMap_length_const {α : Type} (f : ℕ → List α) (c : ℕ) :
    ∀ l : List ℕ, (∀ x ∈ l, (f x).length = c) →
      (l.flatMap f).length = l.length * c := by
  intro l
  induction l with
  | nil => simp
  | cons a as ih =>
      intro h
      simp only [List.flatMap_cons, List.length_append, List.length_cons,
        h a (List.mem_cons_self a as), ih (fun x hx => h x (List.mem_cons_of_mem a hx))]
      ring

lemma tuples5_length : tuples5.length = 3125 := by
  have h4 : ∀ a b c d : ℕ, (tl4 a b c d).length = 5 := by
    intro a b c d
    simp [tl4]
  have h3 : ∀ a b c : ℕ, (tl3 a b c).length = 25 := by
    intro a b c
    exact (flatMap_length_const _ 5 _ (fun x _ => h4 a b c x)).trans (by norm_num)
  have h2 : ∀ a b : ℕ, (tl2 a b).length = 125 := by
    intro a b
    exact (flatMap_length_const _ 25 _ (fun x _ => h3 a b x)).trans (by norm_num)
  have h1 : ∀ a : ℕ, (tl1 a).length = 625 := by
    intro a
    exact (flatMap_length_const _ 125 _ (fun x _ => h2 a x)).trans (by norm_num)
  exact (flatMap_length_const _ 625 _ (fun x _ => h1 x)).trans (by norm_num)

lemma zero_mem_tuples5 : [0, 0, 0, 0, 0] ∈ tuples5 :=
  mem_tuples5.mpr ⟨0, 0, 0, 0, 0, by norm_num, by norm_num, by norm_num,
    by norm_num, by norm_num, rfl⟩

lemma count_eq_one_of_nodup {α : Type} [BEq α] [LawfulBEq α] {l : List α}
    {a : α} (h : l.Nodup) (hm : a ∈ l) : l.count a = 1 := by
  induction l with
  | nil => cases hm
  | cons x xs ih =>
      obtain ⟨hx, hxs⟩ := List.nodup_cons.mp h
      rcases List.mem_cons.mp hm with rfl | hm'
      · rw [List.count_cons_self, List.count_eq_zero.mpr hx]
      · have hne : x ≠ a := fun he => hx (he ▸ hm')
        rw [List.count_cons_of_ne (fun he => hne he.symm), ih hxs hm']

lemma countP_not_bne_eq_one {α : Type} [BEq α] [LawfulBEq α] (l : List α)
    (a : α) (h : l.Nodup) (hm : a ∈ l) :
    l.countP (fun t => !(t != a)) = 1 := by
  have hpred : (fun t : α => !(t != a)) = (fun t : α => t == a) := by
    funext t
    simp [bne]
  rw [hpred]
  have hcc : l.countP (fun t => t == a) = l.count a := rfl
  rw [hcc]
  exact count_eq_one_of_nodup h hm

lemma validTuples_length :
    (tuples5.filter (fun t => t != [0, 0, 0, 0, 0])).length = 3124 := by
  have hc : tuples5.countP (fun t => t != [0, 0, 0, 0, 0]) +
      tuples5.countP (fun t => !(t != [0, 0, 0, 0, 0])) = tuples5.length := by
    induction tuples5 with
    | nil => simp
    | cons a as ih =>
        by_cases h : (a != [0, 0, 0, 0, 0]) = true <;>
          simp [List.countP_cons, h, ← ih] <;> omega
  have hcount : tuples5.countP (fun t => !(t != [0, 0, 0, 0, 0])) = 1 :=
    countP_not_bne_eq_one tuples5 _ tuples5_nodup zero_mem_tuples5
  rw [← List.countP_eq_length_filter]
  rw [tuples5_length] at hc
  omega


lemma mem_validTuples {t : List ℕ} :
    t ∈ tuples5.filter (fun t => t != [0, 0, 0, 0, 0]) ↔
      t.length = 5 ∧ (∀ x ∈ t, x ≤ 4) ∧ t ≠ [0, 0, 0, 0, 0] := by
  rw [List.mem_filter]
  constructor
  · rintro ⟨hmem, hp⟩
    obtain ⟨a, b, c, d, e, ha, hb, hc, hd, he, rfl⟩ := mem_tuples5.mp hmem
    refine ⟨rfl, ?_, by simpa using hp⟩
    intro x hx
    simp only [List.mem_cons, List.not_mem_nil, or_false] at hx
    rcases hx with rfl | rfl | rfl | rfl | rfl <;> omega
  · rintro ⟨hlen, hb4, hnz⟩
    obtain ⟨a, b, c, d, e, rfl⟩ := list_len5 hlen
    have ha : a < 5 := by have := hb4 a (by simp); omega
    have hb : b < 5 := by have := hb4 b (by simp); omega
    have hc : c < 5 := by have := hb4 c (by simp); omega
    have hd : d < 5 := by have := hb4 d (by simp); omega
    have he : e < 5 := by have := hb4 e (by simp); omega
    exact ⟨mem_tuples5.mpr ⟨a, b, c, d, e, ha, hb, hc, hd, he, rfl⟩,
      by simpa using hnz⟩

/-- C2: `make_round_dicts` produces exactly 3,124 entries in each of its
five parallel arrays, and the masks in `bins` are exactly the
`pirates_binary` values of the non-all-zero selections, with no duplicate
and no omission. -/
theorem make_round_dicts_complete (stds : ℕ → ℕ → ℚ) (odds : ℕ → ℕ → ℕ) :
    (make_round_dicts stds odds).bins.length = 3124 ∧
    (make_round_dicts stds odds).probs.length = 3124 ∧
    (make_round_dicts stds odds).odds.length = 3124 ∧
    (make_round_dicts stds odds).ers.length = 3124 ∧
    (make_round_dicts stds odds).maxbets.length = 3124 ∧
    (make_round_dicts stds odds).bins.Nodup ∧
    ∀ m, m ∈ (make_round_dicts stds odds).bins ↔
      ∃ t, t.length = 5 ∧ (∀ x ∈ t, x ≤ 4) ∧ t ≠ [0, 0, 0, 0, 0] ∧
        pirates_binary t = m := by
  have hbins : (make_round_dicts stds odds).bins =
      (tuples5.filter (fun t => t != [0, 0, 0, 0, 0])).map pirates_binary := rfl
  refine ⟨?_, ?_, ?_, ?_, ?_, ?_, ?_⟩
  · rw [hbins, List.length_map]
    exact validTuples_length
  · show ((tuples5.filter (fun t => t != [0, 0, 0, 0, 0])).map
      (fun t => (tuple_prob_odds stds odds t).1)).length = 3124
    rw [List.length_map]
    exact validTuples_length
  · show ((tuples5.filter (fun t => t != [0, 0, 0, 0, 0])).map
      (fun t => (tuple_prob_odds stds odds t).2)).length = 3124
    rw [List.length_map]
    exact validTuples_length
  · show ((tuples5.filter (fun t => t != [0, 0, 0, 0, 0])).map
      (fun t => (tuple_prob_odds stds odds t).1 *
        ((tuple_prob_odds stds odds t).2 : ℚ))).length = 3124
    rw [List.length_map]
    exact validTuples_length
  · show ((tuples5.filter (fun t => t != [0, 0, 0, 0, 0])).map
      (fun t => (1000000 + (tuple_prob_odds stds odds t).2 - 1) /
        (tuple_prob_odds stds odds t).2)).length = 3124
    rw [List.length_map]
    exact validTuples_length
  · rw [hbins]
    refine List.Nodup.map_on ?_ (tuples5_nodup.filter _)
    intro t ht t' ht' heq
    obtain ⟨h5, h4, _⟩ := mem_validTuples.mp ht
    obtain ⟨h5', h4', _⟩ := mem_validTuples.mp ht'
    calc t = binary_to_indices (pirates_binary t) := (roundtrip_aux h5 h4).symm
      _ = binary_to_indices (pirates_binary t') := by rw [heq]
      _ = t' := roundtrip_aux h5' h4'
  · intro m
    rw [hbins, List.mem_map]
    constructor
    · rintro ⟨t, ht, rfl⟩
      obtain ⟨h5, h4, hnz⟩ := mem_validTuples.mp ht
      exact ⟨t, h5, h4, hnz, rfl⟩
    · rintro ⟨t, h5, h4, hnz, rfl⟩
      exact ⟨t, mem_validTuples.mpr ⟨h5, h4, hnz⟩, rfl⟩

/-- C1: for every bet list (5 entries in {0..4} each) with a matching
payout list, the region map produced by `expand_ib_object` is a partition
of the winner-combination domain: every key is doable, and every concrete
winner combination is accepted by exactly one key. -/
theorem expand_ib_object_partition (bets : List (List ℕ)) (bet_odds : List ℕ)
    (hbets : ∀ bet ∈ bets, bet.length = 5 ∧ ∀ x ∈ bet, x ≤ 4)
    (hlen : bet_odds.length = bets.length) :
    (∀ k ∈ keysOf (expand_ib_object bets bet_odds), ib_doable k = true) ∧
    (∀ t, ValidWinner t →
      ∃! k, k ∈ keysOf (expand_ib_object bets bet_odds) ∧ acc k t) := by
  obtain ⟨hbd, hnd, hpw, hcov⟩ := expand_inv bets bet_odds
  refine ⟨fun k hk => (hbd k hk).2, ?_⟩
  intro t hv
  obtain ⟨k, hk, hacc⟩ := hcov t hv
  refine ⟨k, ⟨hk, hacc⟩, ?_⟩
  rintro k' ⟨hk', hacc'⟩
  by_contra hne
  exact hpw k' hk' k hk hne t hv ⟨hacc', hacc⟩

theorem expand_ib_object_partition_witness :
    (∀ k ∈ keysOf (expand_ib_object [[1, 0, 0, 0, 0]] [2]), ib_doable k = true) ∧
    (∀ t, ValidWinner t →
      ∃! k, k ∈ keysOf (expand_ib_object [[1, 0, 0, 0, 0]] [2]) ∧ acc k t) :=
  expand_ib_object_partition [[1, 0, 0, 0, 0]] [2] (by decide) (by decide)


deriving instance DecidableEq for Except

lemma amount_chars_3 (s : ℕ) :
    amount_chars 3 s = [encode_letter (s / 52 / 52 % 52),
      encode_letter (s / 52 % 52), encode_letter (s % 52)] := rfl

lemma encode_letter_alpha : ∀ d, d < 52 →
    is_alpha_char (encode_letter d) = true ∧ char_index (encode_letter d) = d := by
  decide

lemma foldl52_three (u v w : Char) (i : ℕ) :
    List.foldl (fun acc b => acc * 52 + char_index b) i [u, v, w] =
      ((i * 52 + char_index u) * 52 + char_index v) * 52 + char_index w := rfl

/-- C3 counterexample: the maximum stake `70304` does not round-trip; its
encoding is the `None` sentinel (`70304 % 70304 = 0`). -/
theorem amounts_hash_roundtrip_counterexample :
    amounts_hash_to_bet_amounts (bet_amounts_to_amounts_hash [some 70304]) ≠
      Except.ok [some 70304] := by decide

/-- C3 (amended): the stake codec round-trips on `1..=70303`; at
`x = BET_AMOUNT_MAX = 70304` the encoding wraps to the `None` sentinel. -/
theorem amounts_hash_roundtrip (x : ℕ) (h1 : BET_AMOUNT_MIN ≤ x)
    (h2 : x < BET_AMOUNT_MAX) :
    amounts_hash_to_bet_amounts (bet_amounts_to_amounts_hash [some x]) =
      Except.ok [some x] := by
  have h1' : 1 ≤ x := h1
  have h2' : x < 70304 := h2
  have hxmod : x % BET_AMOUNT_MAX = x := Nat.mod_eq_of_lt h2
  have henc : bet_amounts_to_amounts_hash [some x] =
      amount_chars 3 (x + 70304) := by
    rw [bet_amounts_to_amounts_hash, List.flatMap_cons, List.flatMap_nil,
      List.append_nil]
    show amount_chars 3 (x % BET_AMOUNT_MAX + BET_AMOUNT_MAX) = _
    rw [hxmod]
    rfl
  rw [henc, amount_chars_3]
  have hd2 : (x + 70304) / 52 / 52 % 52 < 52 := Nat.mod_lt _ (by norm_num)
  have hd1 : (x + 70304) / 52 % 52 < 52 := Nat.mod_lt _ (by norm_num)
  have hd0 : (x + 70304) % 52 < 52 := Nat.mod_lt _ (by norm_num)
  obtain ⟨ha2, hc2⟩ := encode_letter_alpha _ hd2
  obtain ⟨ha1, hc1⟩ := encode_letter_alpha _ hd1
  obtain ⟨ha0, hc0⟩ := encode_letter_alpha _ hd0
  have hall : ([encode_letter ((x + 70304) / 52 / 52 % 52),
      encode_letter ((x + 70304) / 52 % 52),
      encode_letter ((x + 70304) % 52)].all is_alpha_char) = true := by
    rw [List.all_cons, List.all_cons, List.all_cons, List.all_nil,
      ha2, ha1, ha0]
    rfl
  rw [amounts_hash_to_bet_amounts, if_pos hall]
  rw [show chunks3 [encode_letter ((x + 70304) / 52 / 52 % 52),
      encode_letter ((x + 70304) / 52 % 52),
      encode_letter ((x + 70304) % 52)] =
      [[encode_letter ((x + 70304) / 52 / 52 % 52),
        encode_letter ((x + 70304) / 52 % 52),
        encode_letter ((x + 70304) % 52)]] from rfl,
    List.map_cons, List.map_nil]
  have hdec : decode_chunk [encode_letter ((x + 70304) / 52 / 52 % 52),
      encode_letter ((x + 70304) / 52 % 52),
      encode_letter ((x + 70304) % 52)] = some x := by
    rw [decode_chunk]
    rw [foldl52_three, hc2, hc1, hc0]
    have hval : ((0 * 52 + (x + 70304) / 52 / 52 % 52) * 52 +
        (x + 70304) / 52 % 52) * 52 + (x + 70304) % 52 = x + 70304 := by
      omega
    rw [hval]
    have hsub : x + 70304 - BET_AMOUNT_MAX = x := by
      show x + 70304 - 70304 = x
      omega
    rw [hsub, if_pos h1]
  rw [hdec]

theorem amounts_hash_roundtrip_witness :
    amounts_hash_to_bet_amounts (bet_amounts_to_amounts_hash [some 50]) =
      Except.ok [some 50] :=
  amounts_hash_roundtrip 50 (by decide) (by decide)

/-- C4 counterexample: a 1-character alphabet string decodes successfully
(no length-multiple-of-3 check exists). -/
theorem amounts_hash_no_length_check_counterexample :
    amounts_hash_to_bet_amounts ['a'] = Except.ok [none] ∧
    ['a'].length % 3 ≠ 0 ∧ (∀ c ∈ ['a'], is_alpha_char c = true) := by decide

lemma chunks3_length : ∀ s : List Char, (chunks3 s).length = (s.length + 2) / 3
  | [] => by simp [chunks3]
  | [a] => by simp [chunks3]
  | [a, b] => by simp [chunks3]
  | a :: b :: c :: rest => by
      simp only [chunks3, List.length_cons]
      rw [chunks3_length rest]
      omega

/-- C4 (amended): decoding an amounts hash fails only on out-of-alphabet
characters; any length is accepted, the trailing short group decoded
as-is (the decoded list has one entry per 3-character group, the last
group possibly shorter). -/
theorem amounts_hash_decode_no_length_check (s : List Char) :
    ((∃ l, amounts_hash_to_bet_amounts s = Except.ok l) ↔
      ∀ c ∈ s, is_alpha_char c = true) ∧
    (∀ l, amounts_hash_to_bet_amounts s = Except.ok l →
      l.length = (s.length + 2) / 3) := by
  constructor
  · constructor
    · rintro ⟨l, hl⟩
      by_cases h : s.all is_alpha_char
      · exact fun c hc => List.all_eq_true.mp h c hc
      · rw [amounts_hash_to_bet_amounts, if_neg h] at hl
        cases hl
    · intro h
      have hall : s.all is_alpha_char = true :=
        List.all_eq_true.mpr (fun c hc => h c hc)
      exact ⟨_, by rw [amounts_hash_to_bet_amounts, if_pos hall]⟩
  · intro l hl
    by_cases h : s.all is_alpha_char
    · rw [amounts_hash_to_bet_amounts, if_pos h] at hl
      cases hl
      rw [List.length_map]
      exact chunks3_length s
    · rw [amounts_hash_to_bet_amounts, if_neg h] at hl
      cases hl

theorem amounts_hash_decode_no_length_check_witness :
    ∃ l, amounts_hash_to_bet_amounts ['a', 'b', 'c', 'd'] = Except.ok l :=
  (amounts_hash_decode_no_length_check ['a', 'b', 'c', 'd']).1.mpr (by decide)


lemma ib_prob_full (p : ℕ → ℕ → ℚ)
    (hrow : ∀ i, i < 5 → p i 1 + p i 2 + p i 3 + p i 4 = 1) :
    ib_prob 0xFFFFF p = 1 := by
  show 1 * (p 0 1 + (p 0 2 + (p 0 3 + (p 0 4 + 0)))) *
      (p 1 1 + (p 1 2 + (p 1 3 + (p 1 4 + 0)))) *
      (p 2 1 + (p 2 2 + (p 2 3 + (p 2 4 + 0)))) *
      (p 3 1 + (p 3 2 + (p 3 3 + (p 3 4 + 0)))) *
      (p 4 1 + (p 4 2 + (p 4 3 + (p 4 4 + 0)))) = 1
  have h0 := hrow 0 (by norm_num)
  have h1 := hrow 1 (by norm_num)
  have h2 := hrow 2 (by norm_num)
  have h3 := hrow 3 (by norm_num)
  have h4 := hrow 4 (by norm_num)
  rw [show p 0 1 + (p 0 2 + (p 0 3 + (p 0 4 + 0))) =
    p 0 1 + p 0 2 + p 0 3 + p 0 4 by ring]
  rw [show p 1 1 + (p 1 2 + (p 1 3 + (p 1 4 + 0))) =
    p 1 1 + p 1 2 + p 1 3 + p 1 4 by ring]
  rw [show p 2 1 + (p 2 2 + (p 2 3 + (p 2 4 + 0))) =
    p 2 1 + p 2 2 + p 2 3 + p 2 4 by ring]
  rw [show p 3 1 + (p 3 2 + (p 3 3 + (p 3 4 + 0))) =
    p 3 1 + p 3 2 + p 3 3 + p 3 4 by ring]
  rw [show p 4 1 + (p 4 2 + (p 4 3 + (p 4 4 + 0))) =
    p 4 1 + p 4 2 + p 4 3 + p 4 4 by ring]
  rw [h0, h1, h2, h3, h4]
  norm_num

/-- C6: the empty bet list reduces to the single-region partition
`{0xFFFFF ↦ 0}`, and (for any probability matrix whose rows, columns
1..4, sum to 1) its chance table is the single entry "payout 0 with
probability 1, cumulative 1, tail 1". -/
theorem empty_bets_trivial :
    expand_ib_object [] [] = [(0xFFFFF, 0)] ∧
    ∀ probabilities : ℕ → ℕ → ℚ,
      (∀ i, i < 5 → probabilities i 1 + probabilities i 2 +
        probabilities i 3 + probabilities i 4 = 1) →
      build_chance_objects [] [] probabilities =
        [{ value := 0, probability := 1, cumulative := 1, tail := 1 }] := by
  refine ⟨by decide, ?_⟩
  intro probabilities hrow
  have hb : build_chance_objects [] [] probabilities =
      [{ value := 0, probability := ib_prob 0xFFFFF probabilities + 0,
         cumulative := 0 + (ib_prob 0xFFFFF probabilities + 0), tail := 1 }] := rfl
  rw [hb, ib_prob_full probabilities hrow]
  norm_num

theorem empty_bets_trivial_witness :
    build_chance_objects [] [] (fun _ _ => (1 : ℚ)/4) =
      [{ value := 0, probability := 1, cumulative := 1, tail := 1 }] :=
  empty_bets_trivial.2 (fun _ _ => (1 : ℚ)/4) (by norm_num)

/-- C8: `Odds::new` is partial on the empty bet set: with no array
indices the single chance entry has value 0, the `most_likely_winner`
filter finds nothing, and the `.expect` panics (modelled as `none`); it
is total whenever the chance table has an entry with positive value. -/
theorem odds_new_empty_panics :
    (∀ (data : RoundDictData) (probabilities : ℕ → ℕ → ℚ),
      OddsM.new data probabilities [] = none) ∧
    (∀ probabilities : ℕ → ℕ → ℚ, ∃ c : Chance,
      build_chance_objects [] [] probabilities = [c] ∧ c.value = 0) ∧
    (∀ (data : RoundDictData) (probabilities : ℕ → ℕ → ℚ)
      (array_indices : List ℕ),
      (∃ c ∈ build_chance_objects
        (array_indices.map fun i => binary_to_indices (data.bins.getD i 0))
        (array_indices.map fun i => data.odds.getD i 0) probabilities,
        0 < c.value) →
      (OddsM.new data probabilities array_indices).isSome = true) := by
  refine ⟨fun data probabilities => rfl, fun probabilities => ⟨_, rfl, rfl⟩, ?_⟩
  rintro data probabilities array_indices ⟨c, hc, hcv⟩
  have hne : build_chance_objects
      (array_indices.map fun i => binary_to_indices (data.bins.getD i 0))
      (array_indices.map fun i => data.odds.getD i 0) probabilities ≠ [] :=
    List.ne_nil_of_mem hc
  obtain ⟨last, hlast⟩ : ∃ y, (build_chance_objects
      (array_indices.map fun i => binary_to_indices (data.bins.getD i 0))
      (array_indices.map fun i => data.odds.getD i 0)
      probabilities).getLast? = some y := by
    cases hch : build_chance_objects
        (array_indices.map fun i => binary_to_indices (data.bins.getD i 0))
        (array_indices.map fun i => data.odds.getD i 0) probabilities with
    | nil => exact absurd hch hne
    | cons a as => exact ⟨(a :: as).getLast (by simp), List.getLast?_eq_getLast _ _⟩
  have hcf : c ∈ (build_chance_objects
      (array_indices.map fun i => binary_to_indices (data.bins.getD i 0))
      (array_indices.map fun i => data.odds.getD i 0)
      probabilities).filter (fun c => decide (0 < c.value)) :=
    List.mem_filter.mpr ⟨hc, by simpa using hcv⟩
  obtain ⟨m, hm⟩ : ∃ y, maxByProb ((build_chance_objects
      (array_indices.map fun i => binary_to_indices (data.bins.getD i 0))
      (array_indices.map fun i => data.odds.getD i 0)
      probabilities).filter (fun c => decide (0 < c.value))) = some y := by
    cases hch : (build_chance_objects
        (array_indices.map fun i => binary_to_indices (data.bins.getD i 0))
        (array_indices.map fun i => data.odds.getD i 0)
        probabilities).filter (fun c => decide (0 < c.value)) with
    | nil =>
        rw [hch] at hcf
        cases hcf
    | cons a as => exact ⟨_, rfl⟩
  simp only [OddsM.new, hlast, hm]
  rfl

theorem odds_new_empty_panics_witness :
    (OddsM.new ⟨[0x80000], [1], [2], [2], [500000]⟩
      (fun _ _ => (1 : ℚ)/4) [0]).isSome = true :=
  odds_new_empty_panics.2.2 _ _ _ (by decide)


lemma clamp_in_range (x : ℕ) :
    BET_AMOUNT_MIN ≤ clamp_amount x ∧ clamp_amount x ≤ BET_AMOUNT_MAX := by
  simp only [clamp_amount, BET_AMOUNT_MIN, BET_AMOUNT_MAX]
  split_ifs <;> omega

/-- C9: every bet amount stored in a `Bets` value through
`set_bet_amounts` (hence through any `BetAmounts::to_vec` result it
accepts) or `new_with_amount` is `None` or lies in
`BET_AMOUNT_MIN..=BET_AMOUNT_MAX`: out-of-range amounts are silently
clamped, never rejected. -/
theorem bet_amounts_in_range :
    (∀ (b : BetsM) (amts : Option BetAmountsM) (b' : BetsM),
      b.set_bet_amounts amts = Except.ok b' →
      ∀ l, b'.bet_amounts = some l → ∀ a ∈ l, ∀ v, a = some v →
        BET_AMOUNT_MIN ≤ v ∧ v ≤ BET_AMOUNT_MAX) ∧
    (∀ (b : BetsM) (amount : Option ℕ), b.bet_amounts = none →
      ∀ l, (b.new_with_amount amount).bet_amounts = some l →
        ∀ a ∈ l, ∀ v, a = some v →
          BET_AMOUNT_MIN ≤ v ∧ v ≤ BET_AMOUNT_MAX) := by
  constructor
  · intro b amts b' hok l hl a ha v hv
    simp only [BetsM.set_bet_amounts] at hok
    split at hok
    · cases hok
      simp at hl
    · split at hok
      · cases hok
      · cases hok
        simp at hl
      · split at hok
        · cases hok
        · cases hok
          simp only [Option.some.injEq] at hl
          subst hl
          obtain ⟨x, _, rfl⟩ := List.mem_map.mp ha
          cases x with
          | none => cases hv
          | some w =>
              have hv' : clamp_amount w = v := by simpa using hv
              subst hv'
              exact clamp_in_range w
  · intro b amount hnone l hl a ha v hv
    cases amount with
    | none =>
        simp only [BetsM.new_with_amount, hnone] at hl
        cases hl
    | some amt =>
        simp only [BetsM.new_with_amount, BetsM.set_bet_amount_all_same] at hl
        split at hl
        · simp at hl
        · simp only [Option.some.injEq] at hl
          subst hl
          have hrep := List.eq_of_mem_replicate ha
          subst hrep
          have hv' : clamp_amount amt = v := by simpa using hv
          subst hv'
          exact clamp_in_range amt

theorem bet_amounts_in_range_witness :
    BET_AMOUNT_MIN ≤ 70304 ∧ 70304 ≤ BET_AMOUNT_MAX :=
  bet_amounts_in_range.1
    ⟨[0], [0x80000], none, ⟨⟨0, 0, 0, 0⟩, none, ⟨0, 0, 0, 0⟩, 0, []⟩⟩
    (some (.amounts [some 999999]))
    ⟨[0], [0x80000], some [some 70304], ⟨⟨0, 0, 0, 0⟩, none, ⟨0, 0, 0, 0⟩, 0, []⟩⟩
    rfl [some 70304] rfl (some 70304) (by simp) 70304 rfl

lemma findIdx?_some_getD : ∀ (l : List ℕ) (b i : ℕ),
    l.findIdx? (fun x => x == b) = some i → l.getD i 0 = b ∧ b ∈ l := by
  intro l
  induction l with
  | nil =>
      intro b i h
      simp [List.findIdx?] at h
  | cons a as ih =>
      intro b i h
      rw [show (a :: as).findIdx? (fun x => x == b) =
          (if a == b then some 0
            else ((as.findIdx? (fun x => x == b)).map (· + 1)))
        from by simp [List.findIdx?_cons]] at h
      by_cases hab : (a == b) = true
      · rw [if_pos hab] at h
        cases h
        have hab' : a = b := by simpa using hab
        subst hab'
        exact ⟨rfl, List.mem_cons_self a as⟩
      · rw [if_neg hab] at h
        obtain ⟨j, hj, rfl⟩ := Option.map_eq_some'.mp h
        obtain ⟨hget, hmem⟩ := ih b j hj
        exact ⟨by simpa using hget, List.mem_cons_of_mem a hmem⟩

lemma findIdx?_none_not_mem : ∀ (l : List ℕ) (b : ℕ),
    l.findIdx? (fun x => x == b) = none → b ∉ l := by
  intro l
  induction l with
  | nil =>
      intro b _ hm
      simp at hm
  | cons a as ih =>
      intro b h hm
      rw [show (a :: as).findIdx? (fun x => x == b) =
          (if a == b then some 0
            else ((as.findIdx? (fun x => x == b)).map (· + 1)))
        from by simp [List.findIdx?_cons]] at h
      by_cases hab : (a == b) = true
      · rw [if_pos hab] at h
        cases h
      · rw [if_neg hab] at h
        rcases List.mem_cons.mp hm with rfl | hm'
        · exact hab (by simp)
        · have hnone : as.findIdx? (fun x => x == b) = none := by
            cases hh : as.findIdx? (fun x => x == b) with
            | none => rfl
            | some j =>
                rw [hh] at h
                cases h
          exact ih b hnone hm'

/-- C10: `Bets::from_binaries` keeps exactly the input binaries found in
the round table's `bins` array, in input order, silently dropping the
rest (the result can be shorter than the input, with no error). -/
theorem from_binaries_filters (data : RoundDictData) (binaries : List ℕ) :
    from_binaries_bet_binaries data binaries =
      binaries.filter (fun b => data.bins.contains b) ∧
    (from_binaries_bet_binaries data binaries).length ≤ binaries.length := by
  have hmain : ∀ bs : List ℕ, from_binaries_bet_binaries data bs =
      bs.filter (fun b => data.bins.contains b) := by
    intro bs
    induction bs with
    | nil => rfl
    | cons x rest ih =>
        show ((x :: rest).filterMap
          (fun b => data.bins.findIdx? (fun bin => bin == b))).map
            (fun i => data.bins.getD i 0) =
          (x :: rest).filter (fun b => data.bins.contains b)
        cases hfi : data.bins.findIdx? (fun bin => bin == x) with
        | none =>
            have hcont : data.bins.contains x = false := by
              have hnm : x ∉ data.bins := findIdx?_none_not_mem _ _ hfi
              rw [Bool.eq_false_iff]
              exact fun hc => hnm (List.elem_iff.mp hc)
            simp only [List.filterMap_cons, hfi, List.filter_cons, hcont,
              Bool.false_eq_true, if_false]
            exact ih
        | some i =>
            obtain ⟨hget, hmem⟩ := findIdx?_some_getD _ _ _ hfi
            have hcont : data.bins.contains x = true := List.elem_iff.mpr hmem
            simp only [List.filterMap_cons, hfi, List.filter_cons, hcont,
              if_true, List.map_cons, hget]
            exact congrArg (List.cons x) ih
  refine ⟨hmain binaries, ?_⟩
  rw [hmain binaries]
  exact List.length_filter_le _ _


lemma reduceOption_length_of_no_none :
    ∀ l : List (Option ℕ), (∀ a ∈ l, a ≠ none) →
      l.reduceOption.length = l.length := by
  intro l
  induction l with
  | nil => simp
  | cons a as ih =>
      intro h
      cases a with
      | none => exact absurd rfl (h none (List.mem_cons_self _ _))
      | some w =>
          simp only [List.reduceOption_cons_of_some, List.length_cons]
          rw [ih (fun x hx => h x (List.mem_cons_of_mem _ hx))]

/-- C7 (amended): with odds computed, `is_guaranteed_win` returns `true`
iff the bust entry is absent, bet amounts are present with every entry
defined, and every stake is strictly below every `multiplier × stake`
product *as computed in `u32`*, i.e. reduced modulo `2^32`
(equivalently: the largest stake is below the smallest wrapped winning
payout); it returns `false` whenever any amount is undefined or the set
can bust. The modulus is not vacuous: reachable in-range inputs
overflow `u32`, so the claim's mathematical-product reading fails (see
the counterexample). -/
theorem is_guaranteed_win_iff (b : BetsM) (data : RoundDictData)
    (hne : b.array_indices ≠ [])
    (hlen : ∀ l, b.bet_amounts = some l → l.length = b.array_indices.length) :
    (b.is_guaranteed_win data = some true ↔
      (b.odds.bust = none ∧ ∃ l, b.bet_amounts = some l ∧
        (∀ a ∈ l, a ≠ none) ∧
        ∀ x ∈ l.reduceOption,
          ∀ y ∈ ((b.odds_values data).zip l.reduceOption).map
            (fun oa => oa.1 * oa.2 % 4294967296), x < y)) ∧
    ((b.bet_amounts = none ∨ (∃ l, b.bet_amounts = some l ∧ none ∈ l) ∨
        b.odds.bust ≠ none) →
      b.is_guaranteed_win data = some false) := by
  cases hbust : b.odds.bust with
  | some c =>
      have hval : b.is_guaranteed_win data = some false := by
        simp [BetsM.is_guaranteed_win, BetsM.is_bustproof, hbust]
      refine ⟨?_, fun _ => hval⟩
      rw [hval]
      constructor
      · intro h
        exact absurd h (by simp)
      · rintro ⟨hb, _⟩
        cases hb
  | none =>
      cases hamt : b.bet_amounts with
      | none =>
          have hval : b.is_guaranteed_win data = some false := by
            simp [BetsM.is_guaranteed_win, BetsM.is_bustproof, hbust, hamt]
          refine ⟨?_, fun _ => hval⟩
          rw [hval]
          constructor
          · intro h
            exact absurd h (by simp)
          · rintro ⟨_, l, hl, _⟩
            cases hl
      | some l =>
          have hllen : l.length = b.array_indices.length := hlen l hamt
          have hlne : l ≠ [] := by
            intro h
            apply hne
            rw [h] at hllen
            exact (List.length_eq_zero.mp hllen.symm)
          cases hany : l.any (fun a => a.isNone) with
          | true =>
              have hval : b.is_guaranteed_win data = some false := by
                simp [BetsM.is_guaranteed_win, BetsM.is_bustproof, hbust,
                  hamt, hany]
              have hnonem : none ∈ l := by
                obtain ⟨a, ha, hia⟩ := List.any_eq_true.mp hany
                cases a with
                | none => exact ha
                | some w => cases hia
              refine ⟨?_, fun _ => hval⟩
              rw [hval]
              constructor
              · intro h
                exact absurd h (by simp)
              · rintro ⟨_, l', hl', hnn, _⟩
                cases hl'
                exact absurd rfl (hnn none hnonem)
          | false =>
              have hnonone : ∀ a ∈ l, a ≠ none := by
                intro a ha h
                have hf := List.any_eq_false.mp hany a ha
                rw [h] at hf
                exact hf rfl
              have hRlen : l.reduceOption.length = l.length :=
                reduceOption_length_of_no_none l hnonone
              have hRne : l.reduceOption ≠ [] := by
                intro h
                apply hlne
                rw [h] at hRlen
                exact List.length_eq_zero.mp hRlen.symm
              have hPne : ((b.odds_values data).zip l.reduceOption).map
                  (fun oa => oa.1 * oa.2 % 4294967296) ≠ [] := by
                intro h
                have hlen0 := congrArg List.length h
                simp only [List.length_map, List.length_zip, List.length_nil,
                  BetsM.odds_values] at hlen0
                have h0 : b.array_indices.length = 0 := by omega
                exact hne (List.length_eq_zero.mp h0)
              obtain ⟨hi, hmax⟩ : ∃ y, l.reduceOption.max? = some y := by
                cases hm : l.reduceOption.max? with
                | none => exact absurd (List.max?_eq_none_iff.mp hm) hRne
                | some y => exact ⟨y, rfl⟩
              obtain ⟨lo, hminv⟩ : ∃ y,
                  (((b.odds_values data).zip l.reduceOption).map
                    (fun oa => oa.1 * oa.2 % 4294967296)).min? = some y := by
                cases hm : (((b.odds_values data).zip l.reduceOption).map
                    (fun oa => oa.1 * oa.2 % 4294967296)).min? with
                | none => exact absurd (List.min?_eq_none_iff.mp hm) hPne
                | some y => exact ⟨y, rfl⟩
              have hval : b.is_guaranteed_win data = some (decide (hi < lo)) := by
                simp [BetsM.is_guaranteed_win, BetsM.is_bustproof, hbust,
                  hamt, hany, hmax, hminv]
              obtain ⟨hhiR, hhimax⟩ := List.max?_eq_some_iff'.mp hmax
              obtain ⟨hloP, hlomin⟩ := List.min?_eq_some_iff'.mp hminv
              constructor
              · rw [hval]
                constructor
                · intro h
                  have hhl : hi < lo := of_decide_eq_true (Option.some.inj h)
                  refine ⟨rfl, l, rfl, hnonone, ?_⟩
                  intro x hx y hy
                  exact lt_of_le_of_lt (hhimax x hx)
                    (lt_of_lt_of_le hhl (hlomin y hy))
                · rintro ⟨_, l', hl', _, hlt⟩
                  cases hl'
                  have hhl : hi < lo := hlt hi hhiR lo hloP
                  simp [hhl]
              · rintro (hcase | ⟨l', hl', hnn'⟩ | hcase)
                · cases hcase
                · cases hl'
                  exact absurd rfl (hnonone none hnn')
                · exact absurd rfl hcase

theorem is_guaranteed_win_iff_witness :
    BetsM.is_guaranteed_win
      ⟨[0], [0x8FFFF], some [some 1],
        ⟨⟨2, 1, 1, 1⟩, none, ⟨2, 1, 1, 1⟩, 0, [⟨2, 1, 1, 1⟩]⟩⟩
      ⟨[0x8FFFF], [1], [2], [2], [500000]⟩ = some true :=
  ((is_guaranteed_win_iff
      ⟨[0], [0x8FFFF], some [some 1],
        ⟨⟨2, 1, 1, 1⟩, none, ⟨2, 1, 1, 1⟩, 0, [⟨2, 1, 1, 1⟩]⟩⟩
      ⟨[0x8FFFF], [1], [2], [2], [500000]⟩
      (by decide) (by intro l hl; cases hl; rfl)).1).mpr
    (by refine ⟨rfl, [some 1], rfl, by decide, by decide⟩)

/-- C7 counterexample: `src/bets.rs` multiplies `odds * amount` in
`u32`, which wraps for reachable in-range values. With table odds
`13^5 = 371293` and clamped-in-range stake `57838`, the product
`371293 * 57838 = 5 * 2^32 + 8054` wraps to `8054 < 57838`, so
`is_guaranteed_win` answers `false` although the set is bustproof, all
amounts are defined, and the largest stake is strictly below the
smallest mathematical `multiplier × stake` product — refuting the
claim's unbounded-product reading. -/
theorem is_guaranteed_win_wrap_counterexample :
    BetsM.is_guaranteed_win
      ⟨[0], [0x8FFFF], some [some 57838],
        ⟨⟨2, 1, 1, 1⟩, none, ⟨2, 1, 1, 1⟩, 0, [⟨2, 1, 1, 1⟩]⟩⟩
      ⟨[0x8FFFF], [1], [371293], [2], [3]⟩ = some false ∧
    (⟨[0], [0x8FFFF], some [some 57838],
        ⟨⟨2, 1, 1, 1⟩, none, ⟨2, 1, 1, 1⟩, 0, [⟨2, 1, 1, 1⟩]⟩⟩ :
      BetsM).odds.bust = none ∧
    (∀ a ∈ [some 57838], a ≠ (none : Option ℕ)) ∧
    (∀ x ∈ [some 57838].reduceOption,
      ∀ y ∈ ((BetsM.odds_values
          ⟨[0], [0x8FFFF], some [some 57838],
            ⟨⟨2, 1, 1, 1⟩, none, ⟨2, 1, 1, 1⟩, 0, [⟨2, 1, 1, 1⟩]⟩⟩
          ⟨[0x8FFFF], [1], [371293], [2], [3]⟩).zip
        [some 57838].reduceOption).map (fun oa => oa.1 * oa.2), x < y) := by
  decide

end NFC
